import Mathlib

/-
  Verification of the fractal story outliner's document model.

  The embedding follows src/web/fractal-outliner/src/model/types.ts and
  src/web/fractal-outliner/src/state/store.tsx.  JS records (the `nodes`
  mapping) are modelled as association lists whose key order is insertion
  order; JS numbers appearing in this core (positions, sizes, deltas) are
  modelled as integers; the `Math.random`-based id suffix source is an
  external input and is modelled as a parameter `gen : Nat -> String`
  giving the suffix returned by the k-th call.  The recursive cascade
  walk of `moveNode` is given an explicit fuel, since the source recursion
  has no cycle guard and need not terminate on malformed documents.
-/

set_option maxRecDepth 8000

namespace FractalOutliner

/-- The four fixed hierarchy levels (model/types.ts, NodeKind). -/
inductive NodeKind where
  | act | sequence | step | beat
deriving DecidableEq, Repr

/-- A 2D point (model/types.ts, Point). -/
structure Point where
  x : Int
  y : Int
deriving DecidableEq, Repr

/-- An outer width/height pair (model/types.ts, Size). -/
structure Size where
  w : Int
  h : Int
deriving DecidableEq, Repr

/-- One outline node (model/types.ts, BaseNode). -/
structure BaseNode where
  id : String
  kind : NodeKind
  title : String
  body : String
  pos : Point
  size : Size
  headerHeight : Int
  expanded : Bool
  attachedToParent : Bool
  relativeOffset : Option Point
  parentId : Option String
  childIds : List String
deriving DecidableEq, Repr

/-- The `nodes` record, as an association list in insertion order. -/
abbrev NodeMap := List (String × BaseNode)

/-- The document (model/types.ts, GraphState). -/
structure GraphState where
  nodes : NodeMap
  rootId : String
deriving DecidableEq, Repr

/-- Layout constants (model/types.ts, K). -/
structure LayoutConsts where
  headerHeight : Int
  innerPad : Int
  outerGap : Int
  beatGap : Int

def K : LayoutConsts := { headerHeight := 36, innerPad := 12, outerGap := 20, beatGap := 12 }

/-- Record read `state.nodes[id]`: the binding of `id`, if present. -/
def lookupA : NodeMap → String → Option BaseNode
  | [], _ => none
  | (k, n) :: rest, i => if k = i then some n else lookupA rest i

/-- In-place update of the node stored under `i` (JS object mutation of
    `state.nodes[i]`); keys and their order are unchanged. -/
def setNode (nodes : NodeMap) (i : String) (n : BaseNode) : NodeMap :=
  nodes.map (fun p => if p.1 = i then (p.1, n) else p)

/-- `n.pos = { x: n.pos.x + dx, y: n.pos.y + dy }` (store.tsx, moveNode). -/
def translateNode (n : BaseNode) (dx dy : Int) : BaseNode :=
  { n with pos := { x := n.pos.x + dx, y := n.pos.y + dy } }

/-- The recursive cascade walk `moveChildren` of store.tsx `moveNode`:
    for each id in the work list, if the node exists and is attached,
    translate it and recurse into its children, then continue with the
    remaining siblings.  `fuel` bounds the recursion depth (the source
    has no such bound; it is `none` exactly when the source recursion
    would exceed the given depth). -/
def moveChildrenGo (dx dy : Int) : Nat → NodeMap → List String → Option NodeMap
  | _, nodes, [] => some nodes
  | fuel, nodes, cid :: rest =>
    match lookupA nodes cid with
    | none => moveChildrenGo dx dy fuel nodes rest
    | some c =>
      if c.attachedToParent then
        match fuel with
        | 0 => none
        | fuel' + 1 =>
          match moveChildrenGo dx dy fuel' (setNode nodes cid (translateNode c dx dy)) c.childIds with
          | none => none
          | some nodes' => moveChildrenGo dx dy (fuel' + 1) nodes' rest
      else moveChildrenGo dx dy fuel nodes rest
termination_by fuel _ ids => (fuel, ids.length)

/-- store.tsx `moveNode` with explicit recursion-depth fuel: no-op for an
    unknown id, otherwise translate the node and cascade to its children. -/
def moveNodeFuel (g : GraphState) (i : String) (dx dy : Int) (fuel : Nat) : Option GraphState :=
  match lookupA g.nodes i with
  | none => some g
  | some n =>
    match moveChildrenGo dx dy fuel (setNode g.nodes i (translateNode n dx dy)) n.childIds with
    | none => none
    | some nodes' => some { g with nodes := nodes' }

/-- store.tsx `moveNode`.  A recursion depth of `length + 1` is enough for
    every document on which the source recursion terminates at all (on a
    cyclic document the source diverges; this model then returns the
    document unchanged, and the divergence itself is captured by
    `cascadeTerminates` below). -/
def moveNode (g : GraphState) (i : String) (dx dy : Int) : GraphState :=
  (moveNodeFuel g i dx dy (g.nodes.length + 1)).getD g

/-- The cascade walk of `moveNode` terminates (some finite recursion depth
    completes the walk). -/
def cascadeTerminates (g : GraphState) (i : String) (dx dy : Int) : Prop :=
  ∃ fuel, (moveNodeFuel g i dx dy fuel).isSome

/-- store.tsx `toggleExpand`: flip the `expanded` flag of the named node;
    no-op for an unknown id. -/
def toggleExpand (g : GraphState) (i : String) : GraphState :=
  match lookupA g.nodes i with
  | none => g
  | some n => { g with nodes := setNode g.nodes i { n with expanded := !n.expanded } }

/-- store.tsx `resizeNode`: set `size` to `{w, h}` directly; no-op for an
    unknown id. -/
def resizeNode (g : GraphState) (i : String) (w h : Int) : GraphState :=
  match lookupA g.nodes i with
  | none => g
  | some n => { g with nodes := setNode g.nodes i { n with size := { w := w, h := h } } }

/- ### Basic lookup/update lemmas -/

theorem lookupA_cons (k : String) (n : BaseNode) (l : NodeMap) (v : String) :
    lookupA ((k, n) :: l) v = if k = v then some n else lookupA l v := rfl

theorem setNode_cons (k : String) (n : BaseNode) (l : NodeMap) (i : String) (m : BaseNode) :
    setNode ((k, n) :: l) i m = (if k = i then (k, m) else (k, n)) :: setNode l i m := by
  by_cases h : k = i <;> simp [setNode, h]

theorem lookupA_setNode (ns : NodeMap) (i : String) (m : BaseNode) (v : String) :
    lookupA (setNode ns i m) v =
      if v = i then (lookupA ns i).map (fun _ => m) else lookupA ns v := by
  induction ns with
  | nil => simp [setNode, lookupA]
  | cons p rest ih =>
    obtain ⟨k, n⟩ := p
    rw [setNode_cons]
    by_cases hvi : v = i
    · subst hvi
      by_cases hk : k = v
      · subst hk
        simp [lookupA_cons, ih]
      · simp [lookupA_cons, hk, ih]
    · by_cases hk : k = i
      · subst hk
        have hkv : ¬ k = v := fun h => hvi h.symm
        simp [lookupA_cons, hkv, ih, hvi]
      · by_cases hkv : k = v
        · subst hkv
          simp [lookupA_cons, hk, ih, hvi]
        · simp [lookupA_cons, hk, hkv, ih, hvi]

theorem lookupA_mem {ns : NodeMap} {k : String} {n : BaseNode} (h : lookupA ns k = some n) :
    (k, n) ∈ ns := by
  induction ns with
  | nil => simp [lookupA] at h
  | cons p rest ih =>
    obtain ⟨k', n'⟩ := p
    by_cases hk : k' = k
    · subst hk
      simp [lookupA] at h
      simp [h]
    · simp [lookupA, hk] at h
      exact List.mem_cons_of_mem _ (ih h)

/- ### The serializer (store.tsx saveJSON / loadJSON)

`JSON.stringify` and `JSON.parse` are external builtins; text is modelled
by the JSON value it parses to (`none` for text on which parse throws),
and `saveJSON` by the JS value handed to stringify. -/

/-- A JS value as far as this core observes it: the JSON value kinds plus
    `undefined`, which arises from reading an absent property. -/
inductive JValue where
  | jnull
  | jundefined
  | jbool (b : Bool)
  | jnum (n : Int)
  | jstr (s : String)
  | jarr (elems : List JValue)
  | jobj (fields : List (String × JValue))
deriving Repr

/-- The two ways `loadJSON` can throw: `JSON.parse` rejecting the text, or
    the TypeError from reading a property of null/undefined. -/
inductive LoadErr where
  | parseError
  | typeError
deriving DecidableEq, Repr

/-- Is the value null or undefined (property reads on these throw)? -/
def isNullOrUndef : JValue → Bool
  | .jnull => true
  | .jundefined => true
  | _ => false

/-- JS property read `v.k` as it occurs in `data.nodes` / `data.rootId`:
    throws on null/undefined, looks the key up on objects (undefined when
    absent), and yields undefined on every other value. -/
def jsGet : JValue → String → Except LoadErr JValue
  | .jnull, _ => .error .typeError
  | .jundefined, _ => .error .typeError
  | .jobj fields, k => .ok (((fields.find? (fun p => p.1 = k)).map (fun p => p.2)).getD .jundefined)
  | .jbool _, _ => .ok .jundefined
  | .jnum _, _ => .ok .jundefined
  | .jstr _, _ => .ok .jundefined
  | .jarr _, _ => .ok .jundefined

/-- `jsGet` with a thrown error collapsed to undefined (used only to state
    what a successful load installs). -/
def jsGetOk (v : JValue) (k : String) : JValue :=
  match jsGet v k with
  | .ok r => r
  | .error _ => .jundefined

/-- The store's `{nodes, rootId}` pair as raw JS values: `loadJSON`
    installs the parsed members unchecked, so after a rogue load these
    need not have the typed `GraphState` shape. -/
structure JsDoc where
  nodes : JValue
  rootId : JValue
deriving Repr

/-- store.tsx `loadJSON` body: `data = JSON.parse(json)` (input `none`
    models text on which parse throws), then the new store fields
    `{ nodes: data.nodes, rootId: data.rootId }`, in evaluation order. -/
def loadJSONcore (input : Option JValue) : Except LoadErr JsDoc :=
  match input with
  | none => .error .parseError
  | some data =>
    match jsGet data "nodes" with
    | .error e => .error e
    | .ok ns =>
      match jsGet data "rootId" with
      | .error e => .error e
      | .ok rid => .ok { nodes := ns, rootId := rid }

/-- The zustand `set` around `loadJSON`: if the updater throws, the
    exception propagates before any state is applied and the previous
    document is kept; otherwise the parsed fields replace the document. -/
def applyLoad (doc : JsDoc) (input : Option JValue) : JsDoc × Option LoadErr :=
  match loadJSONcore input with
  | .error e => (doc, some e)
  | .ok d => (d, none)

def encodeKind : NodeKind → JValue
  | .act => .jstr "act"
  | .sequence => .jstr "sequence"
  | .step => .jstr "step"
  | .beat => .jstr "beat"

def encodePoint (p : Point) : JValue :=
  .jobj [("x", .jnum p.x), ("y", .jnum p.y)]

def encodeSize (s : Size) : JValue :=
  .jobj [("w", .jnum s.w), ("h", .jnum s.h)]

/-- The JS value of one node as `saveJSON` hands it to `JSON.stringify`:
    the object-literal field order of `makeNode`, with `undefined`-valued
    optional fields omitted, as stringify does. -/
def encodeNode (n : BaseNode) : JValue :=
  .jobj ([("id", .jstr n.id), ("kind", encodeKind n.kind), ("title", .jstr n.title),
          ("body", .jstr n.body), ("pos", encodePoint n.pos), ("size", encodeSize n.size),
          ("headerHeight", .jnum n.headerHeight), ("expanded", .jbool n.expanded),
          ("attachedToParent", .jbool n.attachedToParent)] ++
         (match n.parentId with
          | some p => [("parentId", .jstr p)]
          | none => []) ++
         (match n.relativeOffset with
          | some r => [("relativeOffset", encodePoint r)]
          | none => []) ++
         [("childIds", .jarr (n.childIds.map (fun c => .jstr c)))])

/-- The JS value `{ nodes: ..., rootId: ... }` that store.tsx `saveJSON`
    stringifies (pretty-printing does not change the value). -/
def saveJSONvalue (g : GraphState) : JValue :=
  .jobj [("nodes", .jobj (g.nodes.map (fun p => (p.1, encodeNode p.2)))),
         ("rootId", .jstr g.rootId)]

/- Reading installed JS values back as a typed document.  The code installs
the parsed values unchecked, so this decoding is the specification-side
notion of "structurally equal document" used by the round-trip claim. -/

def jfield (fields : List (String × JValue)) (k : String) : Option JValue :=
  (fields.find? (fun p => p.1 = k)).map (fun p => p.2)

def asInt : JValue → Option Int
  | .jnum n => some n
  | _ => none

def asStr : JValue → Option String
  | .jstr s => some s
  | _ => none

def asBool : JValue → Option Bool
  | .jbool b => some b
  | _ => none

def decodeKind : JValue → Option NodeKind
  | .jstr "act" => some .act
  | .jstr "sequence" => some .sequence
  | .jstr "step" => some .step
  | .jstr "beat" => some .beat
  | _ => none

def decodePoint : JValue → Option Point
  | .jobj fields => do
    let x ← (jfield fields "x").bind asInt
    let y ← (jfield fields "y").bind asInt
    pure { x := x, y := y }
  | _ => none

def decodeSize : JValue → Option Size
  | .jobj fields => do
    let w ← (jfield fields "w").bind asInt
    let h ← (jfield fields "h").bind asInt
    pure { w := w, h := h }
  | _ => none

def asStrList : List JValue → Option (List String)
  | [] => some []
  | v :: rest => do
    let s ← asStr v
    let ss ← asStrList rest
    pure (s :: ss)

def decodeStrList : JValue → Option (List String)
  | .jarr xs => asStrList xs
  | _ => none

def decodeNode : JValue → Option BaseNode
  | .jobj fields => do
    let nid ← (jfield fields "id").bind asStr
    let kind ← (jfield fields "kind").bind decodeKind
    let title ← (jfield fields "title").bind asStr
    let body ← (jfield fields "body").bind asStr
    let pos ← (jfield fields "pos").bind decodePoint
    let size ← (jfield fields "size").bind decodeSize
    let hh ← (jfield fields "headerHeight").bind asInt
    let expanded ← (jfield fields "expanded").bind asBool
    let att ← (jfield fields "attachedToParent").bind asBool
    let parentId ← match jfield fields "parentId" with
      | none => some none
      | some v => (asStr v).map some
    let relativeOffset ← match jfield fields "relativeOffset" with
      | none => some none
      | some v => (decodePoint v).map some
    let childIds ← (jfield fields "childIds").bind decodeStrList
    pure { id := nid, kind := kind, title := title, body := body, pos := pos, size := size,
           headerHeight := hh, expanded := expanded, attachedToParent := att,
           relativeOffset := relativeOffset, parentId := parentId, childIds := childIds }
  | _ => none

def decodeNodes : List (String × JValue) → Option NodeMap
  | [] => some []
  | (k, v) :: rest => do
    let n ← decodeNode v
    let ns ← decodeNodes rest
    pure ((k, n) :: ns)

/-- Reading the two installed JS values back as a typed document: same node
    ids, same field values, same root id. -/
def decodeLoaded (d : JsDoc) : Option GraphState :=
  match d.nodes with
  | .jobj fs => do
    let ns ← decodeNodes fs
    let r ← asStr d.rootId
    pure { nodes := ns, rootId := r }
  | _ => none

theorem decodePoint_encodePoint (p : Point) : decodePoint (encodePoint p) = some p := by
  obtain ⟨x, y⟩ := p
  simp [decodePoint, encodePoint, jfield, asInt]

theorem decodeNode_encodeNode (n : BaseNode) : decodeNode (encodeNode n) = some n := by
  obtain ⟨nid, kind, title, body, pos, size, hh, expanded, att, relOff, parentId, childIds⟩ := n
  have hk : decodeKind (encodeKind kind) = some kind := by cases kind <;> rfl
  have hs : decodeSize (encodeSize size) = some size := by
    obtain ⟨w, h⟩ := size
    simp [decodeSize, encodeSize, jfield, asInt]
  have hc : decodeStrList (JValue.jarr (childIds.map (fun c => JValue.jstr c))) = some childIds := by
    induction childIds with
    | nil => rfl
    | cons c cs ih =>
      simp [decodeStrList, asStrList, asStr] at ih ⊢
      simp [ih]
  cases relOff <;> cases parentId <;>
    simp [encodeNode, decodeNode, jfield, asStr, asInt, asBool, hk, hs, hc,
      decodePoint_encodePoint]

theorem decodeNodes_encode (l : NodeMap) :
    decodeNodes (l.map (fun p => (p.1, encodeNode p.2))) = some l := by
  induction l with
  | nil => rfl
  | cons p rest ih =>
    obtain ⟨k, n⟩ := p
    simp [decodeNodes, decodeNode_encodeNode, ih]

/-- C2: loading the text produced by saving any document succeeds and
    yields a document structurally equal to the original: the same node
    ids bound to nodes with the same values for every field (id, kind,
    title, body, pos, size, headerHeight, expanded, attachedToParent,
    relativeOffset, parentId, childIds in order) and the same rootId. -/
theorem c2_save_load_roundtrip (g : GraphState) :
    (match loadJSONcore (some (saveJSONvalue g)) with
      | .ok d => decodeLoaded d
      | .error _ => none) = some g := by
  have hload : loadJSONcore (some (saveJSONvalue g)) =
      .ok { nodes := .jobj (g.nodes.map (fun p => (p.1, encodeNode p.2))),
            rootId := .jstr g.rootId } := by
    simp [loadJSONcore, saveJSONvalue, jsGet, List.find?]
  rw [hload]
  simp [decodeLoaded, decodeNodes_encode, asStr]

/-- C3: whenever `loadJSON` fails (the parse throws, or reading a property
    of a parsed null/undefined throws), the previous document is kept
    completely unchanged: no partial replacement occurs. -/
theorem c3_failed_load_preserves (doc : JsDoc) (input : Option JValue) (e : LoadErr)
    (hfail : (applyLoad doc input).2 = some e) : (applyLoad doc input).1 = doc := by
  cases h : loadJSONcore input <;> simp [applyLoad, h] at hfail ⊢

/-- Witness for C3 at a concrete state and failing input: loading parsed
    `null` throws the property-access TypeError and the document survives
    untouched. -/
theorem c3_failed_load_preserves_witness :
    (applyLoad { nodes := JValue.jobj [("a", JValue.jnull)], rootId := JValue.jstr "a" }
        (some JValue.jnull)).2 = some LoadErr.typeError ∧
    (applyLoad { nodes := JValue.jobj [("a", JValue.jnull)], rootId := JValue.jstr "a" }
        (some JValue.jnull)).1 =
      { nodes := JValue.jobj [("a", JValue.jnull)], rootId := JValue.jstr "a" } :=
  ⟨rfl, c3_failed_load_preserves _ (some JValue.jnull) LoadErr.typeError rfl⟩

/-- C4 counterexample: the text `"{}"` parses as JSON but contains neither
    a `nodes` object nor a `rootId` string, yet `loadJSON` does not fail;
    it installs a new document whose fields are both undefined, replacing
    the previous document.  This contradicts the claim that such input
    fails with a MalformedDocument error instead of installing. -/
theorem c4_counterexample :
    (applyLoad { nodes := JValue.jobj [("a", JValue.jnull)], rootId := JValue.jstr "a" }
        (some (JValue.jobj []))).2 = none ∧
    (applyLoad { nodes := JValue.jobj [("a", JValue.jnull)], rootId := JValue.jstr "a" }
        (some (JValue.jobj []))).1 = { nodes := JValue.jundefined, rootId := JValue.jundefined } :=
  ⟨rfl, rfl⟩

/-- C4 amended: `loadJSON` fails exactly when the text does not parse as
    JSON or when the parsed value is null (or undefined), where the
    property reads throw; for every other parsed value it installs
    `data.nodes` and `data.rootId` unchecked as the new document, each
    defaulting to undefined when absent, with no shape validation and no
    MalformedDocument rejection. -/
theorem c4_load_characterization (doc : JsDoc) (input : Option JValue) :
    applyLoad doc input =
      match input with
      | none => (doc, some .parseError)
      | some v =>
        if isNullOrUndef v then (doc, some .typeError)
        else ({ nodes := jsGetOk v "nodes", rootId := jsGetOk v "rootId" }, none) := by
  cases input with
  | none => rfl
  | some v => cases v <;> rfl

/-- C9: `toggleExpand` flips exactly the named node's `expanded` flag and
    changes nothing else (no position, no size, no other node, no rootId);
    `resizeNode` sets exactly the named node's `size` to `{w, h}` with no
    minimum enforced and changes nothing else.  Unknown ids are no-ops. -/
theorem c9_toggle_resize_local (g : GraphState) (i : String) (w h : Int) :
    ((toggleExpand g i).rootId = g.rootId ∧
      ∀ v, lookupA (toggleExpand g i).nodes v =
        if v = i then (lookupA g.nodes v).map (fun n => { n with expanded := !n.expanded })
        else lookupA g.nodes v) ∧
    ((resizeNode g i w h).rootId = g.rootId ∧
      ∀ v, lookupA (resizeNode g i w h).nodes v =
        if v = i then (lookupA g.nodes v).map (fun n => { n with size := { w := w, h := h } })
        else lookupA g.nodes v) := by
  refine ⟨⟨?_, ?_⟩, ⟨?_, ?_⟩⟩
  · cases hl : lookupA g.nodes i <;> simp [toggleExpand, hl]
  · intro v
    cases hl : lookupA g.nodes i with
    | none =>
      by_cases hv : v = i <;> simp [toggleExpand, hl, hv]
    | some n =>
      by_cases hv : v = i
      · subst hv
        simp [toggleExpand, hl, lookupA_setNode]
      · simp [toggleExpand, hl, lookupA_setNode, hv]
  · cases hl : lookupA g.nodes i <;> simp [resizeNode, hl]
  · intro v
    cases hl : lookupA g.nodes i with
    | none =>
      by_cases hv : v = i <;> simp [resizeNode, hl, hv]
    | some n =>
      by_cases hv : v = i
      · subst hv
        simp [resizeNode, hl, lookupA_setNode]
      · simp [resizeNode, hl, lookupA_setNode, hv]

/- ### The cascade walk as a visit list

`visitsGo` records, in order, the ids the cascade walk of `moveNode`
translates; it consults only the structure (key membership, the
`attachedToParent` flags and the `childIds` lists), which the walk never
modifies, so it is evaluated on the unmodified map.  `moveChildrenGo` is
then exactly "translate each visited id once, in order". -/

def visitsGo (nodes : NodeMap) : Nat → List String → Option (List String)
  | _, [] => some []
  | fuel, cid :: rest =>
    match lookupA nodes cid with
    | none => visitsGo nodes fuel rest
    | some c =>
      if c.attachedToParent then
        match fuel with
        | 0 => none
        | fuel' + 1 =>
          match visitsGo nodes fuel' c.childIds with
          | none => none
          | some vs =>
            match visitsGo nodes (fuel' + 1) rest with
            | none => none
            | some ws => some (cid :: (vs ++ ws))
      else visitsGo nodes fuel rest
termination_by fuel ids => (fuel, ids.length)

/-- Translate a node by `cnt` copies of the delta. -/
def translateCount (dx dy : Int) (cnt : Nat) (n : BaseNode) : BaseNode :=
  { n with pos := { x := n.pos.x + (cnt : Int) * dx, y := n.pos.y + (cnt : Int) * dy } }

/-- Apply the delta to every entry once per occurrence of its key in `vs`. -/
def applyTr (dx dy : Int) (vs : List String) (ns : NodeMap) : NodeMap :=
  ns.map (fun p => (p.1, translateCount dx dy (vs.count p.1) p.2))

/-- The keys of the nodes record, in insertion order. -/
@[reducible] def keysOf (ns : NodeMap) : List String := ns.map Prod.fst

/-- A JS record cannot bind the same key twice. -/
@[reducible] def keysNodup (ns : NodeMap) : Prop := (keysOf ns).Nodup

theorem translateCount_zero (dx dy : Int) (n : BaseNode) : translateCount dx dy 0 n = n := by
  simp [translateCount]

theorem translateCount_one (dx dy : Int) (n : BaseNode) :
    translateCount dx dy 1 n = translateNode n dx dy := by
  simp [translateCount, translateNode]

theorem translateCount_add (dx dy : Int) (a b : Nat) (n : BaseNode) :
    translateCount dx dy a (translateCount dx dy b n) = translateCount dx dy (b + a) n := by
  simp only [translateCount]
  congr 1
  simp only [Point.mk.injEq]
  constructor <;> push_cast <;> ring

theorem translateCount_mix (d1x d1y d2x d2y : Int) (c : Nat) (n : BaseNode) :
    translateCount d2x d2y c (translateCount d1x d1y c n) =
      translateCount (d1x + d2x) (d1y + d2y) c n := by
  simp only [translateCount]
  congr 1
  simp only [Point.mk.injEq]
  constructor <;> ring

theorem applyTr_nil (dx dy : Int) (ns : NodeMap) : applyTr dx dy [] ns = ns := by
  simp [applyTr, translateCount_zero]

theorem keysOf_applyTr (dx dy : Int) (vs : List String) (ns : NodeMap) :
    keysOf (applyTr dx dy vs ns) = keysOf ns := by
  simp [keysOf, applyTr]

theorem keysNodup_applyTr (dx dy : Int) (vs : List String) (ns : NodeMap)
    (h : keysNodup ns) : keysNodup (applyTr dx dy vs ns) := by
  unfold keysNodup
  rw [keysOf_applyTr]
  exact h

theorem length_applyTr (dx dy : Int) (vs : List String) (ns : NodeMap) :
    (applyTr dx dy vs ns).length = ns.length := by
  simp [applyTr]

theorem lookupA_applyTr (dx dy : Int) (vs : List String) (ns : NodeMap) (v : String) :
    lookupA (applyTr dx dy vs ns) v =
      (lookupA ns v).map (translateCount dx dy (vs.count v)) := by
  induction ns with
  | nil => simp [applyTr, lookupA]
  | cons p rest ih =>
    obtain ⟨k, n⟩ := p
    by_cases hk : k = v
    · subst hk
      simp [applyTr, lookupA]
    · simp only [applyTr, List.map_cons] at ih ⊢
      rw [lookupA_cons, lookupA_cons, if_neg hk, if_neg hk, ih]

theorem applyTr_append (dx dy : Int) (ws vs : List String) (ns : NodeMap) :
    applyTr dx dy vs (applyTr dx dy ws ns) = applyTr dx dy (ws ++ vs) ns := by
  simp only [applyTr, List.map_map]
  apply List.map_congr_left
  intro p _
  simp [Function.comp, translateCount_add, List.count_append]

theorem applyTr_mix (d1x d1y d2x d2y : Int) (vs : List String) (ns : NodeMap) :
    applyTr d2x d2y vs (applyTr d1x d1y vs ns) = applyTr (d1x + d2x) (d1y + d2y) vs ns := by
  simp only [applyTr, List.map_map]
  apply List.map_congr_left
  intro p _
  simp [Function.comp, translateCount_mix]

theorem setNode_not_mem {ns : NodeMap} {i : String} (h : i ∉ keysOf ns) (m : BaseNode) :
    setNode ns i m = ns := by
  induction ns with
  | nil => rfl
  | cons p rest ih =>
    obtain ⟨k, n⟩ := p
    simp [keysOf] at h
    rw [setNode_cons, if_neg (fun hk => h.1 hk.symm), ih]
    simp [keysOf]
    exact h.2

theorem applyTr_singleton_not_mem {ns : NodeMap} {i : String} (h : i ∉ keysOf ns)
    (dx dy : Int) : applyTr dx dy [i] ns = ns := by
  induction ns with
  | nil => rfl
  | cons p rest ih =>
    obtain ⟨k, n⟩ := p
    simp [keysOf] at h
    have hcnt : List.count k [i] = 0 := by
      simp [List.count_singleton']
      exact fun hk => h.1 hk
    simp only [applyTr, List.map_cons, hcnt, translateCount_zero]
    have := ih (by simp [keysOf]; exact h.2)
    simp only [applyTr] at this
    rw [this]

/-- With unique keys, the walk's update of one looked-up node is a one-visit
    `applyTr`. -/
theorem setNode_translate_eq_applyTr (dx dy : Int) {ns : NodeMap} {i : String} {c : BaseNode}
    (hk : keysNodup ns) (hl : lookupA ns i = some c) :
    setNode ns i (translateNode c dx dy) = applyTr dx dy [i] ns := by
  induction ns with
  | nil => simp [lookupA] at hl
  | cons p rest ih =>
    obtain ⟨k, n⟩ := p
    have hk' : k ∉ keysOf rest ∧ keysNodup rest := by
      unfold keysNodup keysOf at hk ⊢
      simp only [List.map_cons, List.nodup_cons] at hk
      exact ⟨by simpa [keysOf] using hk.1, hk.2⟩
    by_cases hki : k = i
    · subst hki
      rw [lookupA_cons, if_pos rfl] at hl
      injection hl with hl
      subst hl
      rw [setNode_cons, if_pos rfl, setNode_not_mem hk'.1]
      have h2 : applyTr dx dy [k] rest = rest := applyTr_singleton_not_mem hk'.1 dx dy
      simp only [applyTr, List.map_cons] at h2 ⊢
      rw [h2]
      simp [List.count_singleton', translateCount_one]
    · rw [lookupA_cons, if_neg hki] at hl
      rw [setNode_cons, if_neg hki]
      have hcnt : List.count k [i] = 0 := by
        simp [List.count_singleton']
        exact fun h => hki h.symm
      have hih := ih hk'.2 hl
      simp only [applyTr, List.map_cons] at hih ⊢
      rw [hcnt, translateCount_zero, hih]

/-- Translating positions never changes which ids the walk visits: the
    visit list only depends on key membership, `attachedToParent` and
    `childIds`, all untouched by `applyTr`. -/
theorem visitsGo_applyTr (dx dy : Int) (ws : List String) (ns : NodeMap) :
    ∀ fuel ids, visitsGo (applyTr dx dy ws ns) fuel ids = visitsGo ns fuel ids := by
  intro fuel
  induction fuel with
  | zero =>
    intro ids
    induction ids with
    | nil => simp [visitsGo]
    | cons cid rest ihr =>
      cases hl : lookupA ns cid with
      | none => simp [visitsGo, lookupA_applyTr, hl, ihr]
      | some c =>
        by_cases ha : c.attachedToParent
        · simp [visitsGo, lookupA_applyTr, hl, ha, translateCount]
        · simp [visitsGo, lookupA_applyTr, hl, ha, ihr, translateCount]
  | succ f ihf =>
    intro ids
    induction ids with
    | nil => simp [visitsGo]
    | cons cid rest ihr =>
      cases hl : lookupA ns cid with
      | none => simp [visitsGo, lookupA_applyTr, hl, ihr]
      | some c =>
        by_cases ha : c.attachedToParent
        · simp [visitsGo, lookupA_applyTr, hl, ha, translateCount, ihf, ihr]
        · simp [visitsGo, lookupA_applyTr, hl, ha, ihr, translateCount]

/-- The cascade walk is exactly: translate each id of the visit list once,
    in order (provided record keys are unique, as JS records guarantee). -/
theorem moveChildrenGo_eq_visits (dx dy : Int) :
    ∀ fuel ids ns, keysNodup ns →
      moveChildrenGo dx dy fuel ns ids =
        (visitsGo ns fuel ids).map (fun vs => applyTr dx dy vs ns) := by
  intro fuel
  induction fuel with
  | zero =>
    intro ids
    induction ids with
    | nil =>
      intro ns _
      simp [moveChildrenGo, visitsGo, applyTr_nil]
    | cons cid rest ihr =>
      intro ns hns
      cases hl : lookupA ns cid with
      | none => simp [moveChildrenGo, visitsGo, hl, ihr ns hns]
      | some c =>
        by_cases ha : c.attachedToParent
        · simp [moveChildrenGo, visitsGo, hl, ha]
        · simp [moveChildrenGo, visitsGo, hl, ha, ihr ns hns]
  | succ f ihf =>
    intro ids
    induction ids with
    | nil =>
      intro ns _
      simp [moveChildrenGo, visitsGo, applyTr_nil]
    | cons cid rest ihr =>
      intro ns hns
      cases hl : lookupA ns cid with
      | none => simp [moveChildrenGo, visitsGo, hl, ihr ns hns]
      | some c =>
        by_cases ha : c.attachedToParent
        · have hset := setNode_translate_eq_applyTr dx dy hns hl
          have hns1 : keysNodup (applyTr dx dy [cid] ns) := keysNodup_applyTr _ _ _ _ hns
          have hchild := ihf c.childIds (applyTr dx dy [cid] ns) hns1
          rw [visitsGo_applyTr] at hchild
          cases hv : visitsGo ns f c.childIds with
          | none =>
            rw [hv] at hchild
            simp [moveChildrenGo, visitsGo, hl, ha, hset, hchild, hv]
          | some vs =>
            rw [hv] at hchild
            simp only [Option.map_some'] at hchild
            rw [applyTr_append] at hchild
            have hrest := ihr (applyTr dx dy ([cid] ++ vs) ns) (keysNodup_applyTr _ _ _ _ hns)
            rw [visitsGo_applyTr] at hrest
            cases hw : visitsGo ns (f + 1) rest with
            | none =>
              rw [hw] at hrest
              simp only [List.singleton_append, List.append_assoc, Option.map_none'] at hchild hrest
              simp [moveChildrenGo, visitsGo, hl, ha, hset, hchild, hv, hw, hrest]
            | some ws =>
              rw [hw] at hrest
              simp only [Option.map_some'] at hrest
              rw [applyTr_append] at hrest
              simp only [List.singleton_append, List.append_assoc] at hchild hrest
              simp [moveChildrenGo, visitsGo, hl, ha, hset, hchild, hv, hw, hrest]
        · simp [moveChildrenGo, visitsGo, hl, ha, ihr ns hns]

/-- `moveNode`, characterized through its visit list: no-op on unknown ids,
    otherwise translate the moved node and every visited id once. -/
theorem moveNode_visits (g : GraphState) (i : String) (dx dy : Int) (hk : keysNodup g.nodes) :
    moveNode g i dx dy =
      match lookupA g.nodes i with
      | none => g
      | some n =>
        match visitsGo g.nodes (g.nodes.length + 1) n.childIds with
        | none => g
        | some vs => { g with nodes := applyTr dx dy (i :: vs) g.nodes } := by
  cases hl : lookupA g.nodes i with
  | none => simp [moveNode, moveNodeFuel, hl]
  | some n =>
    have hset := setNode_translate_eq_applyTr dx dy hk hl
    have hgo := moveChildrenGo_eq_visits dx dy (g.nodes.length + 1) n.childIds
        (applyTr dx dy [i] g.nodes) (keysNodup_applyTr _ _ _ _ hk)
    rw [visitsGo_applyTr] at hgo
    cases hv : visitsGo g.nodes (g.nodes.length + 1) n.childIds with
    | none =>
      rw [hv] at hgo
      simp [moveNode, moveNodeFuel, hl, hset, hgo, hv]
    | some vs =>
      rw [hv] at hgo
      simp only [Option.map_some'] at hgo
      rw [applyTr_append] at hgo
      simp only [List.singleton_append] at hgo
      simp [moveNode, moveNodeFuel, hl, hset, hgo, hv]

theorem childIds_translateCount (dx dy : Int) (c : Nat) (n : BaseNode) :
    (translateCount dx dy c n).childIds = n.childIds := rfl

/- ### Reachability through unbroken attached chains -/

/-- `pathSteps ns a p`: starting at `a`, each successive id in `p` is
    listed in the current node's `childIds`, exists in the map, and has
    `attachedToParent` true — the spec's unbroken chain of attached
    children. -/
def pathSteps (ns : NodeMap) : String → List String → Prop
  | _, [] => True
  | a, b :: rest =>
    (∃ an, lookupA ns a = some an ∧ b ∈ an.childIds) ∧
    (∃ bn, lookupA ns b = some bn ∧ bn.attachedToParent = true) ∧
    pathSteps ns b rest

/-- The ids `moveNode i` must translate, per the spec: `i` itself (empty
    chain) and every id reachable from it through an unbroken chain of
    children whose `attachedToParent` flag is true. -/
def cascades (ns : NodeMap) (i v : String) : Prop :=
  ∃ p : List String, pathSteps ns i p ∧ v = p.getLastD i

/-- Reached from `c`, where `c` itself exists and is attached (the notion
    fitting ids on a cascade work list). -/
def attReach (ns : NodeMap) (c v : String) : Prop :=
  (∃ cn, lookupA ns c = some cn ∧ cn.attachedToParent = true) ∧
  ∃ p : List String, pathSteps ns c p ∧ v = p.getLastD c

/-- A rank function witnessing acyclicity: strictly decreasing across
    every parent-to-existing-child edge. -/
@[reducible] def RankOK (ns : NodeMap) (rank : String → Nat) : Prop :=
  ∀ p ∈ ns, ∀ c ∈ p.2.childIds, (lookupA ns c).isSome → rank c < rank p.1

/-- All `childIds` lists of the document, concatenated. -/
@[reducible] def globalChildIds (ns : NodeMap) : List String :=
  (ns.map (fun p => p.2.childIds)).flatten

/-- No id is listed as a child twice anywhere in the document (a
    consequence of the §3 invariants: bidirectional consistency plus
    duplicate-free childIds). -/
@[reducible] def globalChildNodup (ns : NodeMap) : Prop := (globalChildIds ns).Nodup

theorem attReach_refl {ns : NodeMap} {c : String} {cn : BaseNode}
    (hl : lookupA ns c = some cn) (ha : cn.attachedToParent = true) : attReach ns c c :=
  ⟨⟨cn, hl, ha⟩, [], trivial, rfl⟩

theorem attReach_prepend {ns : NodeMap} {cid d v : String} {c : BaseNode}
    (hl : lookupA ns cid = some c) (ha : c.attachedToParent = true) (hd : d ∈ c.childIds)
    (h : attReach ns d v) : attReach ns cid v := by
  obtain ⟨⟨dn, hld, had⟩, p, hp, hv⟩ := h
  exact ⟨⟨c, hl, ha⟩, d :: p, ⟨⟨c, hl, hd⟩, ⟨dn, hld, had⟩, hp⟩, by
    rw [List.getLastD_cons]; exact hv⟩

theorem rank_getLastD_le {ns : NodeMap} {rank : String → Nat} (hr : RankOK ns rank) :
    ∀ (p : List String) (a : String), pathSteps ns a p → rank (p.getLastD a) ≤ rank a := by
  intro p
  induction p with
  | nil =>
    intro a _
    simp [List.getLastD]
  | cons b rest ih =>
    intro a h
    obtain ⟨⟨an, hla, hb⟩, ⟨bn, hlb, _⟩, hrest⟩ := h
    have hedge : rank b < rank a := hr (a, an) (lookupA_mem hla) b hb (by simp [hlb])
    calc rank ((b :: rest).getLastD a) = rank (rest.getLastD b) := by rw [List.getLastD_cons]
    _ ≤ rank b := ih b hrest
    _ ≤ rank a := le_of_lt hedge

theorem attReach_rank_le {ns : NodeMap} {rank : String → Nat} (hr : RankOK ns rank)
    {c v : String} (h : attReach ns c v) : rank v ≤ rank c := by
  obtain ⟨_, p, hp, hv⟩ := h
  rw [hv]
  exact rank_getLastD_le hr p c hp

theorem mem_globalChildIds {ns : NodeMap} {q : String} {qn : BaseNode} {v : String}
    (hq : (q, qn) ∈ ns) (hv : v ∈ qn.childIds) : v ∈ globalChildIds ns := by
  unfold globalChildIds
  rw [List.mem_flatten]
  exact ⟨qn.childIds, List.mem_map.mpr ⟨(q, qn), hq, rfl⟩, hv⟩

theorem childIds_nodup {ns : NodeMap} (hg : globalChildNodup ns) {p : String} {pn : BaseNode}
    (hp : (p, pn) ∈ ns) : pn.childIds.Nodup := by
  unfold globalChildNodup globalChildIds at hg
  exact (List.nodup_flatten.mp hg).1 _ (List.mem_map.mpr ⟨(p, pn), hp, rfl⟩)

/-- With unique keys and globally duplicate-free childIds, each id has at
    most one lister: the parent-child edges form a forest. -/
theorem childIds_unique_lister {ns : NodeMap} (hk : keysNodup ns) (hg : globalChildNodup ns) :
    ∀ {p q : String} {pn qn : BaseNode} {v : String},
      (p, pn) ∈ ns → (q, qn) ∈ ns → v ∈ pn.childIds → v ∈ qn.childIds → p = q ∧ pn = qn := by
  induction ns with
  | nil =>
    intro p q pn qn v hp _ _ _
    simp at hp
  | cons e rest ih =>
    intro p q pn qn v hp hq hvp hvq
    obtain ⟨k, kn⟩ := e
    have hknd : keysNodup rest := by
      unfold keysNodup keysOf at hk ⊢
      simp only [List.map_cons, List.nodup_cons] at hk
      exact hk.2
    have hgsplit : kn.childIds.Nodup ∧ globalChildNodup rest ∧
        List.Disjoint kn.childIds (globalChildIds rest) := by
      unfold globalChildNodup globalChildIds at hg ⊢
      simp only [List.map_cons, List.flatten_cons] at hg
      exact List.nodup_append.mp hg
    rcases List.mem_cons.mp hp with hph | hpr <;> rcases List.mem_cons.mp hq with hqh | hqr
    · injection hph with h1 h2
      injection hqh with h3 h4
      subst h1; subst h2; subst h3; subst h4
      exact ⟨rfl, rfl⟩
    · injection hph with h1 h2
      subst h2
      exact (hgsplit.2.2 hvp (mem_globalChildIds hqr hvq)).elim
    · injection hqh with h3 h4
      subst h4
      exact (hgsplit.2.2 hvq (mem_globalChildIds hpr hvp)).elim
    · exact ih hknd hgsplit.2.1 hpr hqr hvp hvq

theorem pathSteps_concat {ns : NodeMap} :
    ∀ (p : List String) (a w : String),
      pathSteps ns a (p ++ [w]) ↔
        pathSteps ns a p ∧
        (∃ qn, lookupA ns (p.getLastD a) = some qn ∧ w ∈ qn.childIds) ∧
        (∃ wn, lookupA ns w = some wn ∧ wn.attachedToParent = true) := by
  intro p
  induction p with
  | nil =>
    intro a w
    simp [pathSteps, List.getLastD]
  | cons b rest ih =>
    intro a w
    simp only [List.cons_append, pathSteps, List.append_eq, ih b w, List.getLastD_cons]
    tauto

/-- Subtrees hanging from two distinct children of the same parent never
    meet: every chain is forced backwards through unique listers. -/
theorem attReach_disjoint {ns : NodeMap} {rank : String → Nat}
    (hk : keysNodup ns) (hg : globalChildNodup ns) (hr : RankOK ns rank)
    {par : String} {parn : BaseNode} (hpar : (par, parn) ∈ ns) :
    ∀ (pa : List String) (a b v : String), a ∈ parn.childIds → b ∈ parn.childIds → a ≠ b →
      (∃ an, lookupA ns a = some an ∧ an.attachedToParent = true) →
      (∃ bn, lookupA ns b = some bn ∧ bn.attachedToParent = true) →
      pathSteps ns a pa → v = pa.getLastD a →
      (∀ pb, pathSteps ns b pb → v = pb.getLastD b → False) := by
  intro pa
  induction pa using List.reverseRecOn with
  | nil =>
    intro a b v ha hb hab hea heb hpa hv pb hpb hvb
    simp only [List.getLastD] at hv
    subst hv
    rcases pb.eq_nil_or_concat' with rfl | ⟨pb', w, rfl⟩
    · simp only [List.getLastD] at hvb
      exact hab hvb
    · obtain ⟨hpb', ⟨qn, hlq, hwq⟩, hwat⟩ := pathSteps_concat pb' b w |>.mp hpb
      rw [List.getLastD_concat] at hvb
      subst hvb
      obtain ⟨hq, hqn⟩ := childIds_unique_lister hk hg (lookupA_mem hlq) hpar hwq ha
      have h1 : rank (pb'.getLastD b) ≤ rank b := rank_getLastD_le hr pb' b hpb'
      obtain ⟨bn, hlb, _⟩ := heb
      have h2 : rank b < rank par := hr (par, parn) hpar b hb (by simp [hlb])
      rw [hq] at h1
      omega
  | append_singleton pa' w ih =>
    intro a b v ha hb hab hea heb hpa hv pb hpb hvb
    obtain ⟨hpa', ⟨qn, hlq, hwq⟩, ⟨wn, hlw, hwat⟩⟩ := pathSteps_concat pa' a w |>.mp hpa
    rw [List.getLastD_concat] at hv
    subst hv
    rcases pb.eq_nil_or_concat' with rfl | ⟨pb', w', rfl⟩
    · simp only [List.getLastD] at hvb
      subst hvb
      obtain ⟨hq, hqn⟩ := childIds_unique_lister hk hg (lookupA_mem hlq) hpar hwq hb
      have h1 : rank (pa'.getLastD a) ≤ rank a := rank_getLastD_le hr pa' a hpa'
      obtain ⟨an, hla, _⟩ := hea
      have h2 : rank a < rank par := hr (par, parn) hpar a ha (by simp [hla])
      rw [hq] at h1
      omega
    · obtain ⟨hpb', ⟨q'n, hlq', hwq'⟩, hwat'⟩ := pathSteps_concat pb' b w' |>.mp hpb
      rw [List.getLastD_concat] at hvb
      subst hvb
      obtain ⟨hq, hqn⟩ :=
        childIds_unique_lister hk hg (lookupA_mem hlq') (lookupA_mem hlq) hwq' hwq
      exact ih a b (pa'.getLastD a) ha hb hab hea heb hpa' rfl pb' hpb' hq.symm

theorem attReach_not_both {ns : NodeMap} {rank : String → Nat}
    (hk : keysNodup ns) (hg : globalChildNodup ns) (hr : RankOK ns rank)
    {par : String} {parn : BaseNode} (hpar : (par, parn) ∈ ns)
    {a b v : String} (ha : a ∈ parn.childIds) (hb : b ∈ parn.childIds) (hab : a ≠ b)
    (h1 : attReach ns a v) (h2 : attReach ns b v) : False := by
  obtain ⟨hea, pa, hpa, hva⟩ := h1
  obtain ⟨heb, pb, hpb, hvb⟩ := h2
  exact attReach_disjoint hk hg hr hpar pa a b v ha hb hab hea heb hpa hva pb hpb hvb

/-- With an acyclicity rank whose values lie below the recursion budget,
    the walk completes: the budget is only consumed when descending, and
    descents strictly decrease the rank. -/
theorem visitsGo_isSome {ns : NodeMap} {rank : String → Nat} (hr : RankOK ns rank) :
    ∀ fuel ids, (∀ c ∈ ids, ∀ cn, lookupA ns c = some cn → rank c < fuel) →
      (visitsGo ns fuel ids).isSome := by
  intro fuel
  induction fuel with
  | zero =>
    intro ids
    induction ids with
    | nil =>
      intro _
      simp [visitsGo]
    | cons cid rest ihr =>
      intro h
      cases hl : lookupA ns cid with
      | none =>
        simp only [visitsGo, hl]
        exact ihr (fun c hc cn hcn => h c (List.mem_cons_of_mem _ hc) cn hcn)
      | some c =>
        have := h cid (List.mem_cons_self _ _) c hl
        omega
  | succ f ihf =>
    intro ids
    induction ids with
    | nil =>
      intro _
      simp [visitsGo]
    | cons cid rest ihr =>
      intro h
      have htail : ∀ c ∈ rest, ∀ cn, lookupA ns c = some cn → rank c < f + 1 :=
        fun c hc cn hcn => h c (List.mem_cons_of_mem _ hc) cn hcn
      cases hl : lookupA ns cid with
      | none =>
        simp only [visitsGo, hl]
        exact ihr htail
      | some c =>
        by_cases ha : c.attachedToParent
        · have hchild : (visitsGo ns f c.childIds).isSome := by
            apply ihf
            intro d hd dn hdn
            have h1 : rank d < rank cid := hr (cid, c) (lookupA_mem hl) d hd (by simp [hdn])
            have h2 : rank cid < f + 1 := h cid (List.mem_cons_self _ _) c hl
            omega
          obtain ⟨vs, hvs⟩ := Option.isSome_iff_exists.mp hchild
          obtain ⟨ws, hws⟩ := Option.isSome_iff_exists.mp (ihr htail)
          simp [visitsGo, hl, ha, hvs, hws]
        · simp only [visitsGo, hl, ha, Bool.false_eq_true, if_false]
          exact ihr htail

/-- Soundness of the visit list: everything visited is reached from some
    work-list id through an unbroken attached chain. -/
theorem visits_mem_attReach {ns : NodeMap} :
    ∀ fuel ids vs, visitsGo ns fuel ids = some vs →
      ∀ v ∈ vs, ∃ c ∈ ids, attReach ns c v := by
  intro fuel
  induction fuel with
  | zero =>
    intro ids
    induction ids with
    | nil =>
      intro vs hvs v hv
      simp [visitsGo] at hvs
      subst hvs
      simp at hv
    | cons cid rest ihr =>
      intro vs hvs v hv
      cases hl : lookupA ns cid with
      | none =>
        simp only [visitsGo, hl] at hvs
        obtain ⟨c, hc, hre⟩ := ihr vs hvs v hv
        exact ⟨c, List.mem_cons_of_mem _ hc, hre⟩
      | some c =>
        by_cases ha : c.attachedToParent
        · simp [visitsGo, hl, ha] at hvs
        · simp only [visitsGo, hl, ha, Bool.false_eq_true, if_false] at hvs
          obtain ⟨c', hc, hre⟩ := ihr vs hvs v hv
          exact ⟨c', List.mem_cons_of_mem _ hc, hre⟩
  | succ f ihf =>
    intro ids
    induction ids with
    | nil =>
      intro vs hvs v hv
      simp [visitsGo] at hvs
      subst hvs
      simp at hv
    | cons cid rest ihr =>
      intro vs hvs v hv
      cases hl : lookupA ns cid with
      | none =>
        simp only [visitsGo, hl] at hvs
        obtain ⟨c, hc, hre⟩ := ihr vs hvs v hv
        exact ⟨c, List.mem_cons_of_mem _ hc, hre⟩
      | some c =>
        by_cases ha : c.attachedToParent
        · cases hv1 : visitsGo ns f c.childIds with
          | none => simp [visitsGo, hl, ha, hv1] at hvs
          | some vs1 =>
            cases hv2 : visitsGo ns (f + 1) rest with
            | none => simp [visitsGo, hl, ha, hv1, hv2] at hvs
            | some ws =>
              simp only [visitsGo, hl, ha, hv1, hv2, if_true] at hvs
              injection hvs with hvs
              subst hvs
              rcases List.mem_cons.mp hv with rfl | hv'
              · exact ⟨v, List.mem_cons_self _ _, attReach_refl hl ha⟩
              · rcases List.mem_append.mp hv' with h1 | h2
                · obtain ⟨d, hd, hre⟩ := ihf c.childIds vs1 hv1 v h1
                  exact ⟨cid, List.mem_cons_self _ _, attReach_prepend hl ha hd hre⟩
                · obtain ⟨c', hc, hre⟩ := ihr ws hv2 v h2
                  exact ⟨c', List.mem_cons_of_mem _ hc, hre⟩
        · simp only [visitsGo, hl, ha, Bool.false_eq_true, if_false] at hvs
          obtain ⟨c', hc, hre⟩ := ihr vs hvs v hv
          exact ⟨c', List.mem_cons_of_mem _ hc, hre⟩

/-- Completeness of the visit list: every id reached from a work-list id
    through an unbroken attached chain is visited (when the walk returns). -/
theorem attReach_mem_visits {ns : NodeMap} :
    ∀ (p : List String) (c v : String) (fuel : Nat) (ids : List String),
      c ∈ ids →
      (∃ cn, lookupA ns c = some cn ∧ cn.attachedToParent = true) →
      pathSteps ns c p → v = p.getLastD c →
      ∀ vs, visitsGo ns fuel ids = some vs → v ∈ vs := by
  intro p
  induction p with
  | nil =>
    intro c v fuel ids
    induction ids with
    | nil =>
      intro hc
      simp at hc
    | cons cid rest ihr =>
      intro hc hex hps hveq vs hvs
      simp only [List.getLastD] at hveq
      subst hveq
      obtain ⟨cn, hlc, hac⟩ := hex
      rcases List.mem_cons.mp hc with rfl | hcr
      · cases fuel with
        | zero => simp [visitsGo, hlc, hac] at hvs
        | succ f =>
          cases hv1 : visitsGo ns f cn.childIds with
          | none => simp [visitsGo, hlc, hac, hv1] at hvs
          | some vs1 =>
            cases hv2 : visitsGo ns (f + 1) rest with
            | none => simp [visitsGo, hlc, hac, hv1, hv2] at hvs
            | some ws =>
              simp only [visitsGo, hlc, hac, hv1, hv2, if_true] at hvs
              injection hvs with hvs
              subst hvs
              exact List.mem_cons_self _ _
      · cases hl : lookupA ns cid with
        | none =>
          simp only [visitsGo, hl] at hvs
          exact ihr hcr ⟨cn, hlc, hac⟩ hps rfl vs hvs
        | some c0 =>
          by_cases ha0 : c0.attachedToParent
          · cases fuel with
            | zero => simp [visitsGo, hl, ha0] at hvs
            | succ f =>
              cases hv1 : visitsGo ns f c0.childIds with
              | none => simp [visitsGo, hl, ha0, hv1] at hvs
              | some vs1 =>
                cases hv2 : visitsGo ns (f + 1) rest with
                | none => simp [visitsGo, hl, ha0, hv1, hv2] at hvs
                | some ws =>
                  simp only [visitsGo, hl, ha0, hv1, hv2, if_true] at hvs
                  injection hvs with hvs
                  subst hvs
                  have hin := ihr hcr ⟨cn, hlc, hac⟩ hps rfl ws hv2
                  exact List.mem_cons_of_mem _ (List.mem_append.mpr (Or.inr hin))
          · simp only [visitsGo, hl, ha0, Bool.false_eq_true, if_false] at hvs
            exact ihr hcr ⟨cn, hlc, hac⟩ hps rfl vs hvs
  | cons d p' ihp =>
    intro c v fuel ids
    induction ids with
    | nil =>
      intro hc
      simp at hc
    | cons cid rest ihr =>
      intro hc hex hps hveq vs hvs
      obtain ⟨⟨an, hla, hd⟩, hdex, hps'⟩ := hps
      simp only [List.getLastD_cons] at hveq
      obtain ⟨cn, hlc, hac⟩ := hex
      rcases List.mem_cons.mp hc with rfl | hcr
      · have han : an = cn := by
          rw [hla] at hlc
          injection hlc
        subst han
        cases fuel with
        | zero => simp [visitsGo, hla, hac] at hvs
        | succ f =>
          cases hv1 : visitsGo ns f an.childIds with
          | none => simp [visitsGo, hla, hac, hv1] at hvs
          | some vs1 =>
            cases hv2 : visitsGo ns (f + 1) rest with
            | none => simp [visitsGo, hla, hac, hv1, hv2] at hvs
            | some ws =>
              simp only [visitsGo, hla, hac, hv1, hv2, if_true] at hvs
              injection hvs with hvs
              subst hvs
              have hin := ihp d v f an.childIds hd hdex hps' hveq vs1 hv1
              exact List.mem_cons_of_mem _ (List.mem_append.mpr (Or.inl hin))
      · have hfull : pathSteps ns c (d :: p') := ⟨⟨an, hla, hd⟩, hdex, hps'⟩
        have hlast : v = (d :: p').getLastD c := by
          rw [List.getLastD_cons]
          exact hveq
        cases hl : lookupA ns cid with
        | none =>
          simp only [visitsGo, hl] at hvs
          exact ihr hcr ⟨cn, hlc, hac⟩ hfull hlast vs hvs
        | some c0 =>
          by_cases ha0 : c0.attachedToParent
          · cases fuel with
            | zero => simp [visitsGo, hl, ha0] at hvs
            | succ f =>
              cases hv1 : visitsGo ns f c0.childIds with
              | none => simp [visitsGo, hl, ha0, hv1] at hvs
              | some vs1 =>
                cases hv2 : visitsGo ns (f + 1) rest with
                | none => simp [visitsGo, hl, ha0, hv1, hv2] at hvs
                | some ws =>
                  simp only [visitsGo, hl, ha0, hv1, hv2, if_true] at hvs
                  injection hvs with hvs
                  subst hvs
                  have hin := ihr hcr ⟨cn, hlc, hac⟩ hfull hlast ws hv2
                  exact List.mem_cons_of_mem _ (List.mem_append.mpr (Or.inr hin))
          · simp only [visitsGo, hl, ha0, Bool.false_eq_true, if_false] at hvs
            exact ihr hcr ⟨cn, hlc, hac⟩ hfull hlast vs hvs

/-- Under the §3 invariants (unique keys, globally duplicate-free childIds,
    acyclicity) no id is visited twice: the visit list is duplicate-free
    whenever the work list is a duplicate-free batch of children of one
    node. -/
theorem visits_nodup {ns : NodeMap} {rank : String → Nat}
    (hk : keysNodup ns) (hg : globalChildNodup ns) (hr : RankOK ns rank) :
    ∀ fuel ids (par : String) (parn : BaseNode), (par, parn) ∈ ns →
      (∀ x ∈ ids, x ∈ parn.childIds) → ids.Nodup →
      ∀ vs, visitsGo ns fuel ids = some vs → vs.Nodup := by
  intro fuel
  induction fuel with
  | zero =>
    intro ids
    induction ids with
    | nil =>
      intro par parn _ _ _ vs hvs
      simp [visitsGo] at hvs
      subst hvs
      exact List.nodup_nil
    | cons cid rest ihr =>
      intro par parn hpar hsub hnd vs hvs
      cases hl : lookupA ns cid with
      | none =>
        simp only [visitsGo, hl] at hvs
        exact ihr par parn hpar (fun x hx => hsub x (List.mem_cons_of_mem _ hx))
          (List.Nodup.of_cons hnd) vs hvs
      | some c =>
        by_cases ha : c.attachedToParent
        · simp [visitsGo, hl, ha] at hvs
        · simp only [visitsGo, hl, ha, Bool.false_eq_true, if_false] at hvs
          exact ihr par parn hpar (fun x hx => hsub x (List.mem_cons_of_mem _ hx))
            (List.Nodup.of_cons hnd) vs hvs
  | succ f ihf =>
    intro ids
    induction ids with
    | nil =>
      intro par parn _ _ _ vs hvs
      simp [visitsGo] at hvs
      subst hvs
      exact List.nodup_nil
    | cons cid rest ihr =>
      intro par parn hpar hsub hnd vs hvs
      cases hl : lookupA ns cid with
      | none =>
        simp only [visitsGo, hl] at hvs
        exact ihr par parn hpar (fun x hx => hsub x (List.mem_cons_of_mem _ hx))
          (List.Nodup.of_cons hnd) vs hvs
      | some c =>
        by_cases ha : c.attachedToParent
        · cases hv1 : visitsGo ns f c.childIds with
          | none => simp [visitsGo, hl, ha, hv1] at hvs
          | some vs1 =>
            cases hv2 : visitsGo ns (f + 1) rest with
            | none => simp [visitsGo, hl, ha, hv1, hv2] at hvs
            | some ws =>
              simp only [visitsGo, hl, ha, hv1, hv2, if_true] at hvs
              injection hvs with hvs
              subst hvs
              have hmemc : (cid, c) ∈ ns := lookupA_mem hl
              have hnd1 : vs1.Nodup :=
                ihf c.childIds cid c hmemc (fun x hx => hx) (childIds_nodup hg hmemc) vs1 hv1
              have hndw : ws.Nodup :=
                ihr par parn hpar (fun x hx => hsub x (List.mem_cons_of_mem _ hx))
                  (List.Nodup.of_cons hnd) ws hv2
              have hcid_vs1 : cid ∉ vs1 := by
                intro hmem
                obtain ⟨d, hd, hre⟩ := visits_mem_attReach f c.childIds vs1 hv1 cid hmem
                have h1 : rank cid ≤ rank d := attReach_rank_le hr hre
                obtain ⟨⟨dn, hld, _⟩, _⟩ := hre
                have h2 : rank d < rank cid := hr (cid, c) hmemc d hd (by simp [hld])
                omega
              have hreach_vs1 : ∀ v ∈ vs1, attReach ns cid v := by
                intro v hv
                obtain ⟨d, hd, hre⟩ := visits_mem_attReach f c.childIds vs1 hv1 v hv
                exact attReach_prepend hl ha hd hre
              have hreach_ws : ∀ v ∈ ws, ∃ c' ∈ rest, attReach ns c' v :=
                fun v hv => visits_mem_attReach (f + 1) rest ws hv2 v hv
              have hcid_ws : cid ∉ ws := by
                intro hmem
                obtain ⟨c', hc', hre⟩ := hreach_ws cid hmem
                have hne : cid ≠ c' := fun h => (List.nodup_cons.mp hnd).1 (h ▸ hc')
                exact attReach_not_both hk hg hr hpar (hsub cid (List.mem_cons_self _ _))
                  (hsub c' (List.mem_cons_of_mem _ hc')) hne (attReach_refl hl ha) hre
              have hdisj : ∀ v, v ∈ vs1 → v ∈ ws → False := by
                intro v hv1m hv2m
                obtain ⟨c', hc', hre'⟩ := hreach_ws v hv2m
                have hne : cid ≠ c' := fun h => (List.nodup_cons.mp hnd).1 (h ▸ hc')
                exact attReach_not_both hk hg hr hpar (hsub cid (List.mem_cons_self _ _))
                  (hsub c' (List.mem_cons_of_mem _ hc')) hne (hreach_vs1 v hv1m) hre'
              rw [List.nodup_cons, List.nodup_append]
              refine ⟨?_, hnd1, hndw, ?_⟩
              · intro hmem
                rcases List.mem_append.mp hmem with h1 | h2
                · exact hcid_vs1 h1
                · exact hcid_ws h2
              · intro v hv1m hv2m
                exact hdisj v hv1m hv2m
        · simp only [visitsGo, hl, ha, Bool.false_eq_true, if_false] at hvs
          exact ihr par parn hpar (fun x hx => hsub x (List.mem_cons_of_mem _ hx))
            (List.Nodup.of_cons hnd) vs hvs

theorem count_cons_self_of_not_mem {l : List String} {a : String} (h : a ∉ l) :
    (a :: l).count a = 1 := by
  rw [List.count_cons]
  simp [List.count_eq_zero.mpr h]

theorem count_cons_ne {l : List String} {a b : String} (h : b ≠ a) :
    (b :: l).count a = l.count a := by
  rw [List.count_cons]
  simp [h]

/-- Full characterization of `moveNode` on a well-formed document: the
    moved node and exactly the ids reached from it through unbroken
    attached chains are translated by `(dx, dy)` once; every other node is
    untouched, as is the root reference. -/
theorem moveNode_spec (g : GraphState) (i : String) (dx dy : Int) (rank : String → Nat)
    (hk : keysNodup g.nodes) (hg : globalChildNodup g.nodes) (hr : RankOK g.nodes rank)
    (hb : ∀ e ∈ g.nodes, rank e.1 ≤ g.nodes.length)
    (n : BaseNode) (hl : lookupA g.nodes i = some n) :
    (moveNode g i dx dy).rootId = g.rootId ∧
    ∀ v nv, lookupA g.nodes v = some nv →
      (cascades g.nodes i v →
        lookupA (moveNode g i dx dy).nodes v = some (translateNode nv dx dy)) ∧
      (¬ cascades g.nodes i v → lookupA (moveNode g i dx dy).nodes v = some nv) := by
  have hmemi : (i, n) ∈ g.nodes := lookupA_mem hl
  have hsome : (visitsGo g.nodes (g.nodes.length + 1) n.childIds).isSome := by
    apply visitsGo_isSome hr
    intro c _ cn hcn
    have := hb (c, cn) (lookupA_mem hcn)
    simp only at this
    omega
  obtain ⟨vs, hv⟩ := Option.isSome_iff_exists.mp hsome
  have hmove : moveNode g i dx dy = { g with nodes := applyTr dx dy (i :: vs) g.nodes } := by
    rw [moveNode_visits g i dx dy hk]
    simp [hl, hv]
  have hnodupvs : vs.Nodup :=
    visits_nodup hk hg hr (g.nodes.length + 1) n.childIds i n hmemi (fun x hx => hx)
      (childIds_nodup hg hmemi) vs hv
  have hinotvs : i ∉ vs := by
    intro hmem
    obtain ⟨c, hc, hre⟩ := visits_mem_attReach _ n.childIds vs hv i hmem
    have h1 : rank i ≤ rank c := attReach_rank_le hr hre
    obtain ⟨⟨cn, hlc, _⟩, _⟩ := hre
    have h2 : rank c < rank i := hr (i, n) hmemi c hc (by simp [hlc])
    omega
  refine ⟨by rw [hmove], ?_⟩
  intro v nv hnv
  have hlook : lookupA (moveNode g i dx dy).nodes v =
      some (translateCount dx dy ((i :: vs).count v) nv) := by
    rw [hmove]
    simp only
    rw [lookupA_applyTr, hnv]
    rfl
  constructor
  · intro hcas
    obtain ⟨p, hp, hveq⟩ := hcas
    by_cases hvi : v = i
    · subst hvi
      rw [hlook, count_cons_self_of_not_mem hinotvs, translateCount_one]
    · cases p with
      | nil =>
        simp [List.getLastD] at hveq
        exact absurd hveq hvi
      | cons c p' =>
        obtain ⟨⟨an, hla, hcmem⟩, hdex, hp'⟩ := hp
        have han : an = n := by
          rw [hla] at hl
          injection hl
        subst han
        rw [List.getLastD_cons] at hveq
        have hmemvs : v ∈ vs :=
          attReach_mem_visits p' c v (g.nodes.length + 1) an.childIds hcmem hdex hp' hveq vs hv
        have hcount : vs.count v = 1 := List.count_eq_one_of_mem hnodupvs hmemvs
        rw [hlook, count_cons_ne (fun h => hvi h.symm), hcount, translateCount_one]
  · intro hnc
    have hvi : v ≠ i := fun h => hnc ⟨[], trivial, h⟩
    have hnotvs : v ∉ vs := by
      intro hmem
      obtain ⟨c, hcmem, hre⟩ := visits_mem_attReach _ n.childIds vs hv v hmem
      obtain ⟨⟨cn, hlc, hac⟩, pc, hpc, hvc⟩ := hre
      apply hnc
      refine ⟨c :: pc, ⟨⟨n, hl, hcmem⟩, ⟨cn, hlc, hac⟩, hpc⟩, ?_⟩
      rw [List.getLastD_cons]
      exact hvc
    rw [hlook, count_cons_ne (fun h => hvi h.symm), List.count_eq_zero.mpr hnotvs,
      translateCount_zero]

/-- C1: for every well-formed document (unique record keys, duplicate-free
    childIds globally, acyclic hierarchy) and every id present in `nodes`,
    `moveNode(id, dx, dy)` translates that node and exactly the nodes
    reachable from it through an unbroken chain of children with
    `attachedToParent` true by `(dx, dy)`; a child with the flag false
    keeps its position and shields its whole subtree, whatever the deeper
    flags say, and every other node is unchanged. -/
theorem c1_moveNode_cascade (g : GraphState) (i : String) (dx dy : Int) (rank : String → Nat)
    (hk : keysNodup g.nodes) (hg : globalChildNodup g.nodes) (hr : RankOK g.nodes rank)
    (hb : ∀ e ∈ g.nodes, rank e.1 ≤ g.nodes.length)
    (n : BaseNode) (hl : lookupA g.nodes i = some n) :
    (moveNode g i dx dy).rootId = g.rootId ∧
    ∀ v nv, lookupA g.nodes v = some nv →
      (cascades g.nodes i v →
        lookupA (moveNode g i dx dy).nodes v = some (translateNode nv dx dy)) ∧
      (¬ cascades g.nodes i v → lookupA (moveNode g i dx dy).nodes v = some nv) :=
  moveNode_spec g i dx dy rank hk hg hr hb n hl

/- A concrete four-node document for the witnesses: N with attached chain
N -> C1 -> C2 and a detached child S (whose own flag pattern matches the
spec's detachment-anchoring scenario). -/

def wNodeN : BaseNode :=
  { id := "n", kind := .act, title := "N", body := "", pos := { x := 0, y := 0 },
    size := { w := 400, h := 300 }, headerHeight := 36, expanded := true,
    attachedToParent := false, relativeOffset := none, parentId := none,
    childIds := ["c1", "s"] }

def wNodeC1 : BaseNode :=
  { id := "c1", kind := .sequence, title := "C1", body := "", pos := { x := 10, y := 10 },
    size := { w := 200, h := 150 }, headerHeight := 36, expanded := true,
    attachedToParent := true, relativeOffset := some { x := 10, y := 10 },
    parentId := some "n", childIds := ["c2"] }

def wNodeC2 : BaseNode :=
  { id := "c2", kind := .step, title := "C2", body := "", pos := { x := 20, y := 20 },
    size := { w := 100, h := 80 }, headerHeight := 36, expanded := true,
    attachedToParent := true, relativeOffset := some { x := 10, y := 10 },
    parentId := some "c1", childIds := [] }

def wNodeS : BaseNode :=
  { id := "s", kind := .sequence, title := "S", body := "", pos := { x := 30, y := 30 },
    size := { w := 200, h := 150 }, headerHeight := 36, expanded := true,
    attachedToParent := false, relativeOffset := some { x := 30, y := 30 },
    parentId := some "n", childIds := [] }

def wDoc : GraphState :=
  { nodes := [("n", wNodeN), ("c1", wNodeC1), ("c2", wNodeC2), ("s", wNodeS)],
    rootId := "n" }

def wRank : String → Nat :=
  fun s => if s = "n" then 3 else if s = "c1" then 2 else 1

/-- Witness for C1: its hypotheses hold at the concrete document `wDoc`,
    and the theorem there translates the grandchild C2 of the attached
    chain by exactly the delta. -/
theorem c1_moveNode_cascade_witness :
    lookupA (moveNode wDoc "n" 5 7).nodes "c2" = some (translateNode wNodeC2 5 7) := by
  have h := c1_moveNode_cascade wDoc "n" 5 7 wRank (by decide) (by decide) (by decide)
    (by decide) wNodeN (by decide)
  refine (h.2 "c2" wNodeC2 (by decide)).1 ?_
  refine ⟨["c1", "c2"], ?_, by decide⟩
  simp only [pathSteps]
  exact ⟨⟨wNodeN, by decide, by decide⟩, ⟨wNodeC1, by decide, by decide⟩,
    ⟨wNodeC1, by decide, by decide⟩, ⟨wNodeC2, by decide, by decide⟩, trivial⟩

/- ### Termination of the cascade (claim C5) -/

/-- A malformed single-node document whose node lists itself as an
    attached child: the kind of corrupted data a hand-edited file can
    produce, since nothing validates childIds on load. -/
def loopNode : BaseNode :=
  { id := "a", kind := .act, title := "A", body := "", pos := { x := 0, y := 0 },
    size := { w := 100, h := 100 }, headerHeight := 36, expanded := true,
    attachedToParent := true, relativeOffset := none, parentId := none,
    childIds := ["a"] }

def loopDoc : GraphState := { nodes := [("a", loopNode)], rootId := "a" }

theorem moveChildrenGo_loop_none (dx dy : Int) :
    ∀ (fuel : Nat) (ns : NodeMap) (c : BaseNode), lookupA ns "a" = some c →
      c.attachedToParent = true → c.childIds = ["a"] →
      moveChildrenGo dx dy fuel ns ["a"] = none := by
  intro fuel
  induction fuel with
  | zero =>
    intro ns c hl ha hc
    simp [moveChildrenGo, hl, ha]
  | succ f ih =>
    intro ns c hl ha hc
    have hl2 : lookupA (setNode ns "a" (translateNode c dx dy)) "a" =
        some (translateNode c dx dy) := by
      rw [lookupA_setNode]
      simp [hl]
    have hrec := ih (setNode ns "a" (translateNode c dx dy)) (translateNode c dx dy) hl2
      (by simpa [translateNode] using ha) (by simpa [translateNode] using hc)
    simp [moveChildrenGo, hl, ha, hc, hrec]

/-- C5 counterexample: on the cyclic document `loopDoc` (its only node is
    an attached child of itself) the cascade recursion of `moveNode`
    completes at no recursion depth whatsoever — the engine has no
    visited-set guard and recurses forever, contradicting the claim that
    it terminates on every input document including cyclic ones. -/
theorem c5_counterexample : ¬ cascadeTerminates loopDoc "a" 1 1 := by
  rintro ⟨fuel, hf⟩
  have hl : lookupA loopDoc.nodes "a" = some loopNode := by decide
  have hgo := moveChildrenGo_loop_none 1 1 fuel
    (setNode loopDoc.nodes "a" (translateNode loopNode 1 1)) (translateNode loopNode 1 1)
    (by rw [lookupA_setNode]; simp [hl]) (by decide) (by decide)
  simp only [moveNodeFuel, hl] at hf
  rw [show loopNode.childIds = ["a"] from rfl, hgo] at hf
  simp at hf

/-- C5 amended: the cascade walk terminates on every document admitting a
    rank function strictly decreasing along parent-to-child edges (every
    acyclic childIds structure, in particular every well-formed §3
    document), and there no node is ever visited twice; but on a document
    whose attached childIds chains form a cycle the recursion never
    finishes — the engine has no defensive visited-set. -/
theorem c5_cascade_terminates_acyclic (g : GraphState) (i : String) (dx dy : Int)
    (rank : String → Nat) (hk : keysNodup g.nodes) (hg : globalChildNodup g.nodes)
    (hr : RankOK g.nodes rank) (hb : ∀ e ∈ g.nodes, rank e.1 ≤ g.nodes.length) :
    cascadeTerminates g i dx dy ∧
    (∀ n vs, lookupA g.nodes i = some n →
      visitsGo g.nodes (g.nodes.length + 1) n.childIds = some vs → (i :: vs).Nodup) := by
  constructor
  · cases hl : lookupA g.nodes i with
    | none => exact ⟨0, by simp [moveNodeFuel, hl]⟩
    | some n =>
      have hmemi : (i, n) ∈ g.nodes := lookupA_mem hl
      have hsome : (visitsGo g.nodes (g.nodes.length + 1) n.childIds).isSome := by
        apply visitsGo_isSome hr
        intro c _ cn hcn
        have := hb (c, cn) (lookupA_mem hcn)
        simp only at this
        omega
      obtain ⟨vs, hv⟩ := Option.isSome_iff_exists.mp hsome
      have hgo : moveChildrenGo dx dy (g.nodes.length + 1)
          (setNode g.nodes i (translateNode n dx dy)) n.childIds =
          some (applyTr dx dy vs (applyTr dx dy [i] g.nodes)) := by
        rw [setNode_translate_eq_applyTr dx dy hk hl,
          moveChildrenGo_eq_visits dx dy (g.nodes.length + 1) n.childIds _
            (keysNodup_applyTr _ _ _ _ hk),
          visitsGo_applyTr, hv]
        rfl
      exact ⟨g.nodes.length + 1, by simp [moveNodeFuel, hl, hgo]⟩
  · intro n vs hl hv
    have hmemi : (i, n) ∈ g.nodes := lookupA_mem hl
    have hnodupvs : vs.Nodup :=
      visits_nodup hk hg hr (g.nodes.length + 1) n.childIds i n hmemi (fun x hx => hx)
        (childIds_nodup hg hmemi) vs hv
    have hinotvs : i ∉ vs := by
      intro hmem
      obtain ⟨c, hc, hre⟩ := visits_mem_attReach _ n.childIds vs hv i hmem
      have h1 : rank i ≤ rank c := attReach_rank_le hr hre
      obtain ⟨⟨cn, hlc, _⟩, _⟩ := hre
      have h2 : rank c < rank i := hr (i, n) hmemi c hc (by simp [hlc])
      omega
    exact List.nodup_cons.mpr ⟨hinotvs, hnodupvs⟩

/-- Witness for the amended C5 at the concrete document `wDoc`: the walk
    terminates there. -/
theorem c5_cascade_terminates_acyclic_witness : cascadeTerminates wDoc "n" 1 1 :=
  (c5_cascade_terminates_acyclic wDoc "n" 1 1 wRank (by decide) (by decide) (by decide)
    (by decide)).1

/- ### The initial document (store.tsx initialGraph)

The construction is straight-line code drawing one random id suffix per
node; `gen k` is the suffix of the k-th `id()` call (creation order: the
Act, the 2 Sequences, the 8 Steps sequence-major, the 32 Beats
step-major).  The source pushes child ids into parent objects through the
record's aliasing; this functional rendering assembles each node with its
final childIds, which matches the record whenever the 43 drawn ids are
distinct (the intended mode of Math.random; claim C8 covers collisions). -/

/-- store.tsx `id(prefix)`: prefix, underscore, random suffix. -/
def idStr (pre suffix : String) : String := pre ++ "_" ++ suffix

/-- store.tsx `makeNode`, the generated id passed explicitly. -/
def makeNode (nodeId : String) (kind : NodeKind) (title body : String)
    (x y w h : Int) (parentId : Option String) : BaseNode :=
  { id := nodeId, kind := kind, title := title, body := body,
    pos := { x := x, y := y }, size := { w := w, h := h },
    headerHeight := K.headerHeight, expanded := true,
    attachedToParent := parentId.isSome,
    relativeOffset := parentId.map (fun _ => { x := 0, y := 0 }),
    parentId := parentId, childIds := [] }

def initialGraph (gen : Nat → String) : GraphState :=
  let stepW : Int := 220
  let beatH : Int := 140
  let stepBodyH : Int := 4 * beatH + 3 * K.beatGap
  let stepH : Int := K.headerHeight + K.innerPad + stepBodyH + K.innerPad
  let seqW : Int := 4 * stepW + 3 * K.outerGap + K.innerPad * 2
  let seqH : Int := K.headerHeight + K.innerPad + stepH + K.innerPad
  let actW : Int := 2 * seqW + K.outerGap + K.innerPad * 2
  let actH : Int := K.headerHeight + K.innerPad + seqH + K.innerPad
  let actId := idStr "act" (gen 0)
  let seqId := fun (i : Nat) => idStr "sequence" (gen (1 + i))
  let stepId := fun (si i : Nat) => idStr "step" (gen (3 + (4 * si + i)))
  let beatId := fun (t j : Nat) => idStr "beat" (gen (11 + (4 * t + j)))
  let act : BaseNode :=
    { makeNode actId .act "ACT" "Body..." 40 40 actW actH none with
        childIds := (List.range 2).map (fun i => seqId i) }
  let mkSeq := fun (i : Nat) =>
    let offsetX : Int := K.innerPad + (i : Int) * (seqW + K.outerGap)
    let offsetY : Int := K.headerHeight + K.innerPad
    { makeNode (seqId i) .sequence ("SEQ " ++ toString (i + 1)) "Body..." 0 0 seqW seqH
        (some actId) with
        pos := { x := act.pos.x + K.innerPad + offsetX, y := act.pos.y + offsetY },
        relativeOffset := some { x := offsetX, y := offsetY },
        childIds := (List.range 4).map (fun k => stepId i k) }
  let mkStep := fun (si i : Nat) =>
    let s := mkSeq si
    let offsetX : Int := K.innerPad + (i : Int) * (stepW + K.outerGap)
    let offsetY : Int := K.headerHeight + K.innerPad
    { makeNode (stepId si i) .step ("STEP " ++ toString (i + 1)) "Body..." 0 0 stepW stepH
        (some s.id) with
        pos := { x := s.pos.x + offsetX, y := s.pos.y + offsetY },
        relativeOffset := some { x := offsetX, y := offsetY },
        childIds := (List.range 4).map (fun j => beatId (4 * si + i) j) }
  let mkBeat := fun (t j : Nat) =>
    let st := mkStep (t / 4) (t % 4)
    let beatW : Int := stepW - K.innerPad * 2
    let offsetX : Int := K.innerPad
    let offsetY : Int := K.headerHeight + K.innerPad + (j : Int) * (beatH + K.beatGap)
    { makeNode (beatId t j) .beat ("BEAT " ++ toString (j + 1)) "Body..." 0 0 beatW beatH
        (some st.id) with
        pos := { x := st.pos.x + offsetX, y := st.pos.y + offsetY },
        relativeOffset := some { x := offsetX, y := offsetY } }
  { nodes :=
      (actId, act) ::
        ((List.range 2).map (fun i => (seqId i, mkSeq i)) ++
          ((List.range 2).flatMap
              (fun si => (List.range 4).map (fun i => (stepId si i, mkStep si i))) ++
            (List.range 8).flatMap
              (fun t => (List.range 4).map (fun j => (beatId t j, mkBeat t j))))),
    rootId := actId }

/- Index-level mirror of the construction: node k of the creation order,
described by arithmetic on k.  `initialGraph_eq_indexedDoc` checks the two
agree definitionally. -/

def kindOfIdx (k : Nat) : NodeKind :=
  if k = 0 then .act else if k < 3 then .sequence else if k < 11 then .step else .beat

def prefixOfKind : NodeKind → String
  | .act => "act"
  | .sequence => "sequence"
  | .step => "step"
  | .beat => "beat"

def idAt (gen : Nat → String) (k : Nat) : String := idStr (prefixOfKind (kindOfIdx k)) (gen k)

def parentIdxOf (k : Nat) : Nat :=
  if k < 3 then 0 else if k < 11 then 1 + (k - 3) / 4 else 3 + (k - 11) / 4

def childIdxs (k : Nat) : List Nat :=
  if k = 0 then [1, 2]
  else if k < 3 then (List.range 4).map (fun i => 3 + (4 * (k - 1) + i))
  else if k < 11 then (List.range 4).map (fun j => 11 + (4 * (k - 3) + j))
  else []

def posAt (k : Nat) : Point :=
  if k = 0 then { x := 40, y := 40 }
  else if k < 3 then { x := 64 + 984 * ((k : Int) - 1), y := 88 }
  else if k < 11 then
    { x := 76 + 984 * (((k - 3) / 4 : Nat) : Int) + 240 * (((k - 3) % 4 : Nat) : Int), y := 136 }
  else
    { x := 88 + 984 * ((((k - 11) / 4) / 4 : Nat) : Int) + 240 * ((((k - 11) / 4) % 4 : Nat) : Int),
      y := 184 + 152 * (((k - 11) % 4 : Nat) : Int) }

def titleAt (k : Nat) : String :=
  if k = 0 then "ACT"
  else if k < 3 then "SEQ " ++ toString ((k - 1) + 1)
  else if k < 11 then "STEP " ++ toString (((k - 3) % 4) + 1)
  else "BEAT " ++ toString (((k - 11) % 4) + 1)

def sizeAt (k : Nat) : Size :=
  if k = 0 then { w := 1972, h := 776 }
  else if k < 3 then { w := 964, h := 716 }
  else if k < 11 then { w := 220, h := 656 }
  else { w := 196, h := 140 }

def relOffAt (k : Nat) : Point :=
  if k < 3 then { x := 12 + 984 * ((k : Int) - 1), y := 48 }
  else if k < 11 then { x := 12 + 240 * (((k - 3) % 4 : Nat) : Int), y := 48 }
  else { x := 12, y := 48 + 152 * (((k - 11) % 4 : Nat) : Int) }

def nodeAt (gen : Nat → String) (k : Nat) : BaseNode :=
  { id := idAt gen k, kind := kindOfIdx k, title := titleAt k, body := "Body...",
    pos := posAt k, size := sizeAt k, headerHeight := 36, expanded := true,
    attachedToParent := k != 0,
    relativeOffset := if k = 0 then none else some (relOffAt k),
    parentId := if k = 0 then none else some (idAt gen (parentIdxOf k)),
    childIds := (childIdxs k).map (idAt gen) }

def indexedDoc (gen : Nat → String) : GraphState :=
  { nodes := (List.range 43).map (fun k => (idAt gen k, nodeAt gen k)),
    rootId := idAt gen 0 }

theorem initialGraph_eq_indexedDoc (gen : Nat → String) : initialGraph gen = indexedDoc gen :=
  rfl

/-- The id-generation outcomes under which the 43 generated ids are
    pairwise distinct (Math.random gives no such guarantee by itself). -/
@[reducible] def freshIds (gen : Nat → String) : Prop :=
  ∀ i, i < 43 → ∀ j, j < 43 → idAt gen i = idAt gen j → i = j

/-- The canonical distinct generator used by the witnesses. -/
def gen0 : Nat → String := fun k => toString k

theorem lookupA_of_mem_of_nodup {ns : NodeMap} (hk : keysNodup ns) {k : String} {n : BaseNode}
    (hm : (k, n) ∈ ns) : lookupA ns k = some n := by
  induction ns with
  | nil => simp at hm
  | cons p rest ih =>
    obtain ⟨k', n'⟩ := p
    rcases List.mem_cons.mp hm with heq | hmr
    · injection heq with h1 h2
      subst h1
      subst h2
      simp [lookupA_cons]
    · have hne : k' ≠ k := by
        intro h
        subst h
        exact (List.nodup_cons.mp hk).1 (List.mem_map.mpr ⟨(k', n), hmr, rfl⟩)
      rw [lookupA_cons, if_neg hne]
      exact ih (List.nodup_cons.mp hk).2 hmr

theorem indexedDoc_keysNodup (gen : Nat → String) (hf : freshIds gen) :
    keysNodup (indexedDoc gen).nodes := by
  unfold keysNodup keysOf indexedDoc
  simp only [List.map_map]
  have h : (Prod.fst ∘ fun k => (idAt gen k, nodeAt gen k)) = fun k => idAt gen k := rfl
  rw [h]
  exact (List.nodup_range ..).map_on
    (fun x hx y hy hxy => hf x (List.mem_range.mp hx) y (List.mem_range.mp hy) hxy)

theorem lookupA_indexedDoc (gen : Nat → String) (hf : freshIds gen) {j : Nat} (hj : j < 43) :
    lookupA (indexedDoc gen).nodes (idAt gen j) = some (nodeAt gen j) :=
  lookupA_of_mem_of_nodup (indexedDoc_keysNodup gen hf)
    (List.mem_map.mpr ⟨j, List.mem_range.mpr hj, rfl⟩)

/-- C8 counterexample: if the random id source happens to return the same
    suffix "x" on every call — an outcome Math.random does not exclude —
    the construction creates several nodes with identical ids (both
    Sequences become "sequence_x"), so node ids are not distinct for every
    possible outcome of the id-generation source. -/
theorem c8_counterexample : ¬ keysNodup (initialGraph (fun _ => "x")).nodes := by decide

/-- C8 amended: every node created during initial construction receives an
    id distinct from every other node's — and is keyed by its own id —
    provided the 43 drawn suffixes make the generated ids pairwise
    distinct; a repeated suffix within one kind collides (and in the JS
    record the later node overwrites the earlier one). -/
theorem c8_ids_unique (gen : Nat → String) (hf : freshIds gen) :
    keysNodup (initialGraph gen).nodes ∧
    ∀ p n, (p, n) ∈ (initialGraph gen).nodes → n.id = p := by
  rw [initialGraph_eq_indexedDoc]
  refine ⟨indexedDoc_keysNodup gen hf, ?_⟩
  intro p n hm
  simp only [indexedDoc, List.mem_map, List.mem_range] at hm
  obtain ⟨k, _, heq⟩ := hm
  injection heq with h1 h2
  subst h1
  subst h2
  rfl

/-- Witness for the amended C8: the canonical generator draws distinct
    suffixes, and the 43 resulting ids are indeed pairwise distinct. -/
theorem c8_ids_unique_witness : keysNodup (initialGraph gen0).nodes :=
  (c8_ids_unique gen0 (by decide)).1

theorem parentIdxOf_lt : ∀ k, k < 43 → parentIdxOf k < 43 := by decide

/-- The extra pad by which a Sequence's recorded offset falls short of its
    actual offset from the parent position (zero for the other kinds). -/
def seqPad (kd : NodeKind) : Int := if kd = .sequence then K.innerPad else 0

theorem relOffAt_spec : ∀ k, k < 43 → k ≠ 0 →
    relOffAt k = Point.mk ((posAt k).x - (posAt (parentIdxOf k)).x - seqPad (kindOfIdx k))
      ((posAt k).y - (posAt (parentIdxOf k)).y) := by decide

/-- C7 corrected relation: in the initial document every attached node's
    relativeOffset equals its position minus its parent's position for
    Steps and Beats, but for Sequences the x-component is further short of
    that difference by innerPad (the Sequence position adds the pad twice);
    no single interior-origin offset fits all kinds (see the
    counterexample). -/
theorem c7_relative_offsets (gen : Nat → String) (hf : freshIds gen) :
    ∀ p n, (p, n) ∈ (initialGraph gen).nodes → n.attachedToParent = true →
      ∃ pid pn, n.parentId = some pid ∧
        lookupA (initialGraph gen).nodes pid = some pn ∧
        n.relativeOffset = some (Point.mk (n.pos.x - pn.pos.x - seqPad n.kind)
          (n.pos.y - pn.pos.y)) := by
  rw [initialGraph_eq_indexedDoc]
  intro p n hm hatt
  simp only [indexedDoc, List.mem_map, List.mem_range] at hm
  obtain ⟨k, hk43, heq⟩ := hm
  injection heq with h1 h2
  subst h1
  subst h2
  have hk0 : k ≠ 0 := by
    intro h
    subst h
    simp [nodeAt] at hatt
  refine ⟨idAt gen (parentIdxOf k), nodeAt gen (parentIdxOf k), ?_, ?_, ?_⟩
  · simp [nodeAt, hk0]
  · exact lookupA_indexedDoc gen hf (parentIdxOf_lt k hk43)
  · show (nodeAt gen k).relativeOffset = _
    simp only [nodeAt, if_neg hk0]
    rw [relOffAt_spec k hk43 hk0]

/-- Claim C7's uniform reading of "interior origin": one fixed vector `V`,
    the same for all four kinds, such that every parent's interior origin
    is `parent.pos + V` and every attached node's relativeOffset is its
    position minus that point. -/
def offsetsUniformWith (g : GraphState) (V : Point) : Prop :=
  ∀ p n, (p, n) ∈ g.nodes → n.attachedToParent = true →
    ∃ pid pn, n.parentId = some pid ∧ lookupA g.nodes pid = some pn ∧
      n.relativeOffset = some (Point.mk (n.pos.x - (pn.pos.x + V.x)) (n.pos.y - (pn.pos.y + V.y)))

/-- C7 counterexample: no fixed interior-origin offset works uniformly for
    all kinds in the initial document; the Sequences (offset short of the
    position difference by innerPad in x) force `V.x = 12` while the Steps
    force `V.x = 0`. -/
theorem c7_counterexample :
    ¬ ∃ V : Point, offsetsUniformWith (initialGraph gen0) V := by
  rintro ⟨V, hV⟩
  have hseq := hV (idAt gen0 1) (nodeAt gen0 1)
    (by rw [initialGraph_eq_indexedDoc]; exact List.mem_map.mpr ⟨1, by decide, rfl⟩)
    (by decide)
  have hstep := hV (idAt gen0 3) (nodeAt gen0 3)
    (by rw [initialGraph_eq_indexedDoc]; exact List.mem_map.mpr ⟨3, by decide, rfl⟩)
    (by decide)
  obtain ⟨pid1, pn1, hpid1, hlk1, hoff1⟩ := hseq
  obtain ⟨pid3, pn3, hpid3, hlk3, hoff3⟩ := hstep
  rw [show (nodeAt gen0 1).parentId = some (idAt gen0 0) from rfl] at hpid1
  injection hpid1 with hpid1
  subst hpid1
  rw [show lookupA (initialGraph gen0).nodes (idAt gen0 0) = some (nodeAt gen0 0) by
    rw [initialGraph_eq_indexedDoc]; exact lookupA_indexedDoc gen0 (by decide) (by omega)] at hlk1
  injection hlk1 with hlk1
  subst hlk1
  rw [show (nodeAt gen0 3).parentId = some (idAt gen0 1) from rfl] at hpid3
  injection hpid3 with hpid3
  subst hpid3
  rw [show lookupA (initialGraph gen0).nodes (idAt gen0 1) = some (nodeAt gen0 1) by
    rw [initialGraph_eq_indexedDoc]; exact lookupA_indexedDoc gen0 (by decide) (by omega)] at hlk3
  injection hlk3 with hlk3
  subst hlk3
  rw [show (nodeAt gen0 1).relativeOffset = some (Point.mk 12 48) from rfl,
    show (nodeAt gen0 1).pos = Point.mk 64 88 from rfl,
    show (nodeAt gen0 0).pos = Point.mk 40 40 from rfl] at hoff1
  rw [show (nodeAt gen0 3).relativeOffset = some (Point.mk 12 48) from rfl,
    show (nodeAt gen0 3).pos = Point.mk 76 136 from rfl,
    show (nodeAt gen0 1).pos = Point.mk 64 88 from rfl] at hoff3
  simp only [Option.some.injEq, Point.mk.injEq] at hoff1 hoff3
  omega

/-- Witness for the corrected C7 at the canonical generator: the relation
    holds e.g. at the first Beat, whose parent is the first Step. -/
theorem c7_relative_offsets_witness :
    (nodeAt gen0 11).relativeOffset = some (Point.mk
      ((nodeAt gen0 11).pos.x - (nodeAt gen0 3).pos.x - seqPad (nodeAt gen0 11).kind)
      ((nodeAt gen0 11).pos.y - (nodeAt gen0 3).pos.y)) := by
  obtain ⟨pid, pn, hpid, hlk, hoff⟩ := c7_relative_offsets gen0 (by decide)
    (idAt gen0 11) (nodeAt gen0 11)
    (by rw [initialGraph_eq_indexedDoc]; exact List.mem_map.mpr ⟨11, by decide, rfl⟩)
    (by decide)
  rw [show (nodeAt gen0 11).parentId = some (idAt gen0 3) from rfl] at hpid
  injection hpid with hpid
  subst hpid
  rw [show lookupA (initialGraph gen0).nodes (idAt gen0 3) = some (nodeAt gen0 3) by
    rw [initialGraph_eq_indexedDoc]; exact lookupA_indexedDoc gen0 (by decide) (by omega)] at hlk
  injection hlk with hlk
  subst hlk
  exact hoff

/- ### Rank and reachability structure of the initial document (for C6) -/

def rankOfIdx (k : Nat) : Nat :=
  if k = 0 then 3 else if k < 3 then 2 else if k < 11 then 1 else 0

/-- A rank on ids of the initial document, through the index of the id. -/
def rankFor (gen : Nat → String) : String → Nat := fun s =>
  match (List.range 43).find? (fun k => idAt gen k == s) with
  | some k => rankOfIdx k
  | none => 0

theorem rankFor_idAt (gen : Nat → String) (hf : freshIds gen) {j : Nat} (hj : j < 43) :
    rankFor gen (idAt gen j) = rankOfIdx j := by
  unfold rankFor
  cases hfind : (List.range 43).find? (fun k => idAt gen k == idAt gen j) with
  | none =>
    exfalso
    have := List.find?_eq_none.mp hfind j (List.mem_range.mpr hj)
    simp at this
  | some k =>
    have h1 := List.find?_some hfind
    have h2 : k ∈ List.range 43 := List.mem_of_find?_eq_some hfind
    have h3 : k = j := hf k (List.mem_range.mp h2) j hj (by simpa using h1)
    subst h3
    rfl

def allChildIdx : List Nat := (List.range 43).flatMap childIdxs

theorem allChildIdx_nodup : allChildIdx.Nodup := by decide

theorem allChildIdx_lt : ∀ x ∈ allChildIdx, x < 43 := by decide

theorem globalChildIds_indexedDoc (gen : Nat → String) :
    globalChildIds (indexedDoc gen).nodes = allChildIdx.map (idAt gen) := rfl

theorem indexedDoc_globalChildNodup (gen : Nat → String) (hf : freshIds gen) :
    globalChildNodup (indexedDoc gen).nodes := by
  unfold globalChildNodup
  rw [globalChildIds_indexedDoc]
  exact allChildIdx_nodup.map_on (fun x hx y hy hxy =>
    hf x (allChildIdx_lt x hx) y (allChildIdx_lt y hy) hxy)

theorem childIdxs_lt : ∀ k, k < 43 → ∀ j ∈ childIdxs k, j < 43 := by decide

theorem rankOfIdx_decrease : ∀ k, k < 43 → ∀ j ∈ childIdxs k, rankOfIdx j < rankOfIdx k := by
  decide

theorem indexedDoc_rankOK (gen : Nat → String) (hf : freshIds gen) :
    RankOK (indexedDoc gen).nodes (rankFor gen) := by
  intro p hp c hc _
  simp only [indexedDoc, List.mem_map, List.mem_range] at hp
  obtain ⟨k, hk43, rfl⟩ := hp
  have hc2 : ∃ j ∈ childIdxs k, idAt gen j = c := by
    simpa [nodeAt] using hc
  obtain ⟨j, hj, rfl⟩ := hc2
  show rankFor gen (idAt gen j) < rankFor gen (idAt gen k)
  rw [rankFor_idAt gen hf (childIdxs_lt k hk43 j hj), rankFor_idAt gen hf hk43]
  exact rankOfIdx_decrease k hk43 j hj

theorem rankOfIdx_le : ∀ k, k < 43 → rankOfIdx k ≤ 43 := by decide

theorem indexedDoc_rank_bound (gen : Nat → String) (hf : freshIds gen) :
    ∀ e ∈ (indexedDoc gen).nodes, rankFor gen e.1 ≤ (indexedDoc gen).nodes.length := by
  intro e he
  simp only [indexedDoc, List.mem_map, List.mem_range] at he
  obtain ⟨k, hk43, rfl⟩ := he
  show rankFor gen (idAt gen k) ≤ 43
  rw [rankFor_idAt gen hf hk43]
  exact rankOfIdx_le k hk43

/-- The index path from the root down to node k. -/
def idxPath (k : Nat) : List Nat :=
  if k = 0 then []
  else if k < 3 then [k]
  else if k < 11 then [parentIdxOf k, k]
  else [parentIdxOf (parentIdxOf k), parentIdxOf k, k]

/-- Each successive index is a child of the previous, in range, non-root. -/
def chainOKidx : Nat → List Nat → Bool
  | _, [] => true
  | a, b :: rest =>
    decide (b ∈ childIdxs a) && decide (b < 43) && decide (b ≠ 0) && chainOKidx b rest

theorem idxPath_chain : ∀ k, k < 43 → chainOKidx 0 (idxPath k) = true := by decide

theorem idxPath_last : ∀ k, k < 43 → (idxPath k).getLastD 0 = k := by decide

theorem getLastD_map_idAt (gen : Nat → String) :
    ∀ (l : List Nat) (a : Nat), (l.map (idAt gen)).getLastD (idAt gen a) = idAt gen (l.getLastD a) := by
  intro l
  induction l with
  | nil => intro a; rfl
  | cons b rest ih =>
    intro a
    simp only [List.map_cons, List.getLastD_cons]
    exact ih b

theorem pathSteps_of_chain (gen : Nat → String) (hf : freshIds gen) :
    ∀ (l : List Nat) (a : Nat), a < 43 → chainOKidx a l = true →
      pathSteps (indexedDoc gen).nodes (idAt gen a) (l.map (idAt gen)) := by
  intro l
  induction l with
  | nil =>
    intro a _ _
    trivial
  | cons b rest ih =>
    intro a ha hch
    simp only [chainOKidx, Bool.and_eq_true, decide_eq_true_eq] at hch
    obtain ⟨⟨⟨hbmem, hb43⟩, hb0⟩, hrest⟩ := hch
    refine ⟨⟨nodeAt gen a, lookupA_indexedDoc gen hf ha, ?_⟩,
      ⟨nodeAt gen b, lookupA_indexedDoc gen hf hb43, ?_⟩, ih b hb43 hrest⟩
    · show idAt gen b ∈ (nodeAt gen a).childIds
      simpa [nodeAt] using List.mem_map_of_mem (idAt gen) hbmem
    · show (nodeAt gen b).attachedToParent = true
      simpa [nodeAt] using hb0

/-- C6: whenever the 43 drawn ids are distinct, the initially constructed
    document has exactly 43 nodes — 1 Act at (40,40), 2 Sequences, 8
    Steps, 32 Beats — every non-root node has `attachedToParent` true, and
    `moveNode(rootId, 100, -20)` shifts every one of the 43 nodes'
    positions by exactly (100, -20). -/
theorem c6_initial_template_move (gen : Nat → String) (hf : freshIds gen) :
    (initialGraph gen).nodes.length = 43 ∧
    ((initialGraph gen).nodes.countP (fun p => p.2.kind == NodeKind.act) = 1 ∧
     (initialGraph gen).nodes.countP (fun p => p.2.kind == NodeKind.sequence) = 2 ∧
     (initialGraph gen).nodes.countP (fun p => p.2.kind == NodeKind.step) = 8 ∧
     (initialGraph gen).nodes.countP (fun p => p.2.kind == NodeKind.beat) = 32) ∧
    (∃ actn, lookupA (initialGraph gen).nodes (initialGraph gen).rootId = some actn ∧
      actn.kind = NodeKind.act ∧ actn.pos = Point.mk 40 40) ∧
    (∀ p n, (p, n) ∈ (initialGraph gen).nodes → p ≠ (initialGraph gen).rootId →
      n.attachedToParent = true) ∧
    (∀ v nv, lookupA (initialGraph gen).nodes v = some nv →
      lookupA (moveNode (initialGraph gen) (initialGraph gen).rootId 100 (-20)).nodes v =
        some (translateNode nv 100 (-20))) := by
  rw [initialGraph_eq_indexedDoc]
  refine ⟨rfl, ⟨rfl, rfl, rfl, rfl⟩,
    ⟨nodeAt gen 0, lookupA_indexedDoc gen hf (by omega), rfl, rfl⟩, ?_, ?_⟩
  · intro p n hm hne
    simp only [indexedDoc, List.mem_map, List.mem_range] at hm
    obtain ⟨k, hk43, heq⟩ := hm
    injection heq with h1 h2
    subst h1
    subst h2
    have hk0 : k ≠ 0 := by
      intro h
      subst h
      exact hne rfl
    show (k != 0) = true
    simpa using hk0
  · intro v nv hnv
    have hspec := moveNode_spec (indexedDoc gen) (indexedDoc gen).rootId 100 (-20) (rankFor gen)
      (indexedDoc_keysNodup gen hf) (indexedDoc_globalChildNodup gen hf)
      (indexedDoc_rankOK gen hf) (indexedDoc_rank_bound gen hf)
      (nodeAt gen 0) (lookupA_indexedDoc gen hf (by omega))
    have hmem := lookupA_mem hnv
    simp only [indexedDoc, List.mem_map, List.mem_range] at hmem
    obtain ⟨k, hk43, heq⟩ := hmem
    injection heq with h1 h2
    subst h1
    have hcas : cascades (indexedDoc gen).nodes (indexedDoc gen).rootId (idAt gen k) := by
      refine ⟨(idxPath k).map (idAt gen),
        pathSteps_of_chain gen hf (idxPath k) 0 (by omega) (idxPath_chain k hk43), ?_⟩
      show idAt gen k = ((idxPath k).map (idAt gen)).getLastD (idAt gen 0)
      rw [getLastD_map_idAt gen (idxPath k) 0, idxPath_last k hk43]
    exact (hspec.2 (idAt gen k) nv hnv).1 hcas

/-- Witness for C6 at the canonical distinct generator: the move shifts
    e.g. the last Beat by exactly (100, -20). -/
theorem c6_initial_template_move_witness :
    lookupA (moveNode (initialGraph gen0) (initialGraph gen0).rootId 100 (-20)).nodes
        (idAt gen0 42) =
      some (translateNode (nodeAt gen0 42) 100 (-20)) := by
  refine (c6_initial_template_move gen0 (by decide)).2.2.2.2 (idAt gen0 42) (nodeAt gen0 42) ?_
  rw [initialGraph_eq_indexedDoc]
  exact lookupA_indexedDoc gen0 (by decide) (by omega)

end FractalOutliner
